import Mathlib

/-!
Verification development for the Duty-Agent scheduling orchestrator
(`Assets_Duty/core.py`).

Python strings are modelled as `List Char` (Python compares strings
lexicographically by code point); Python `set` values as `Finset ℤ`;
Python `dict` values as association lists with dict-update semantics;
the untyped JSON trees coming back from the model as the inductive
type `JVal`.  Every definition below is a direct translation of the
corresponding function in `core.py`.
-/

namespace DutyAgent

/-! ### Python string ordering (lexicographic by code point) -/

def strLt : List Char → List Char → Bool
  | [], [] => false
  | [], _ :: _ => true
  | _ :: _, [] => false
  | a :: as, b :: bs =>
    if a.toNat < b.toNat then true
    else if b.toNat < a.toNat then false
    else strLt as bs

def strLe (s t : List Char) : Bool := !(strLt t s)

@[simp] theorem strLt_nil_nil : strLt [] [] = false := rfl

@[simp] theorem strLt_nil_cons (b : Char) (bs : List Char) :
    strLt [] (b :: bs) = true := rfl

@[simp] theorem strLt_cons_nil (a : Char) (as : List Char) :
    strLt (a :: as) [] = false := rfl

theorem strLt_cons_cons (a b : Char) (as bs : List Char) :
    strLt (a :: as) (b :: bs) =
      if a.toNat < b.toNat then true
      else if b.toNat < a.toNat then false
      else strLt as bs := rfl

theorem strLt_irrefl (s : List Char) : strLt s s = false := by
  induction s with
  | nil => rfl
  | cons c cs ih =>
    rw [strLt_cons_cons, if_neg (by omega), if_neg (by omega)]
    exact ih

theorem strLt_trans {a b c : List Char} (h1 : strLt a b = true)
    (h2 : strLt b c = true) : strLt a c = true := by
  induction a generalizing b c with
  | nil =>
    cases b with
    | nil => simp at h1
    | cons y ys =>
      cases c with
      | nil => simp at h2
      | cons z zs => simp
  | cons x xs ih =>
    cases b with
    | nil => simp at h1
    | cons y ys =>
      cases c with
      | nil => simp at h2
      | cons z zs =>
        rw [strLt_cons_cons] at h1 h2 ⊢
        rcases Nat.lt_trichotomy x.toNat y.toNat with hxy | hxy | hxy
        · rcases Nat.lt_trichotomy y.toNat z.toNat with hyz | hyz | hyz
          · rw [if_pos (by omega)]
          · rw [if_pos (by omega)]
          · rw [if_neg (by omega), if_pos hyz] at h2
            simp at h2
        · rw [if_neg (by omega), if_neg (by omega)] at h1
          rcases Nat.lt_trichotomy y.toNat z.toNat with hyz | hyz | hyz
          · rw [if_pos (by omega)]
          · rw [if_neg (by omega), if_neg (by omega)] at h2
            rw [if_neg (by omega), if_neg (by omega)]
            exact ih h1 h2
          · rw [if_neg (by omega), if_pos hyz] at h2
            simp at h2
        · rw [if_neg (by omega), if_pos hxy] at h1
          simp at h1

theorem strLt_eq_of_not (s t : List Char) (h1 : strLt s t = false)
    (h2 : strLt t s = false) : s = t := by
  induction s generalizing t with
  | nil =>
    cases t with
    | nil => rfl
    | cons y ys => simp at h1
  | cons x xs ih =>
    cases t with
    | nil => simp at h2
    | cons y ys =>
      rw [strLt_cons_cons] at h1 h2
      rcases Nat.lt_trichotomy x.toNat y.toNat with hxy | hxy | hxy
      · rw [if_pos hxy] at h1; simp at h1
      · rw [if_neg (by omega), if_neg (by omega)] at h1 h2
        have hN : x.toNat = y.toNat := hxy
        have hc : x = y := Char.ext (UInt32.ext hN)
        rw [hc, ih ys h1 h2]
      · rw [if_pos hxy] at h2; simp at h2

theorem strLt_asymm {s t : List Char} (h : strLt s t = true) :
    strLt t s = false := by
  cases hx : strLt t s with
  | false => rfl
  | true =>
    have := strLt_trans h hx
    rw [strLt_irrefl] at this
    exact absurd this (by simp)

theorem strLe_of_strLt {s t : List Char} (h : strLt s t = true) :
    strLe s t = true := by
  unfold strLe
  rw [strLt_asymm h]
  rfl

theorem strLt_of_strLe_of_ne {s t : List Char} (h : strLe s t = true)
    (hne : s ≠ t) : strLt s t = true := by
  unfold strLe at h
  cases hts : strLt t s with
  | true => rw [hts] at h; simp at h
  | false =>
    cases hst : strLt s t with
    | true => rfl
    | false => exact absurd (strLt_eq_of_not s t hst hts) hne

theorem strLe_total (s t : List Char) :
    strLe s t = true ∨ strLe t s = true := by
  unfold strLe
  cases h : strLt t s with
  | false => left; rfl
  | true => right; rw [strLt_asymm h]; rfl

theorem strLe_trans {a b c : List Char} (h1 : strLe a b = true)
    (h2 : strLe b c = true) : strLe a c = true := by
  unfold strLe at h1 h2 ⊢
  cases hca : strLt c a with
  | false => rfl
  | true =>
    exfalso
    cases hba : strLt b a with
    | true => rw [hba] at h1; simp at h1
    | false =>
      cases hcb : strLt c b with
      | true => rw [hcb] at h2; simp at h2
      | false =>
        cases hbc : strLt b c with
        | true =>
          have := strLt_trans hbc hca
          rw [this] at hba
          simp at hba
        | false =>
          have heq : b = c := strLt_eq_of_not b c hbc hcb
          rw [heq, hca] at hba
          simp at hba

theorem strLt_ne {s t : List Char} (h : strLt s t = true) : s ≠ t := by
  intro he
  rw [he, strLt_irrefl] at h
  simp at h

/-! ### Python `str.strip` (whitespace) and `str.lower` -/

def pySpace (c : Char) : Bool :=
  c = ' ' || c = '\t' || c = '\n' || c = '\r' || c = '\x0b' || c = '\x0c'

def pyStrip (s : List Char) : List Char :=
  ((s.dropWhile pySpace).reverse.dropWhile pySpace).reverse

def pyLower (s : List Char) : List Char := s.map Char.toLower

/-! ### Python dicts as association lists (unique keys, insertion order) -/

def dictSet {α β : Type} [DecidableEq α] : List (α × β) → α → β → List (α × β)
  | [], k, v => [(k, v)]
  | (k', v') :: rest, k, v =>
    if k' = k then (k, v) :: rest else (k', v') :: dictSet rest k v

def dictGet {α β : Type} [DecidableEq α] : List (α × β) → α → Option β
  | [], _ => none
  | (k', v') :: rest, k => if k' = k then some v' else dictGet rest k

theorem dictSet_mem {α β : Type} [DecidableEq α]
    (m : List (α × β)) (k : α) (v : β) :
    ∀ p ∈ dictSet m k v, p = (k, v) ∨ p ∈ m := by
  induction m with
  | nil => intro p hp; simp [dictSet] at hp; left; exact hp
  | cons q rest ih =>
    intro p hp
    obtain ⟨k', v'⟩ := q
    simp only [dictSet] at hp
    by_cases hk : k' = k
    · rw [if_pos hk] at hp
      rcases List.mem_cons.mp hp with h | h
      · left; exact h
      · right; exact List.mem_cons_of_mem _ h
    · rw [if_neg hk] at hp
      rcases List.mem_cons.mp hp with h | h
      · right; rw [h]; exact List.mem_cons_self _ _
      · rcases ih p h with h' | h'
        · left; exact h'
        · right; exact List.mem_cons_of_mem _ h'

theorem dictSet_keys_subset {α β : Type} [DecidableEq α]
    (m : List (α × β)) (k : α) (v : β) :
    ∀ x ∈ (dictSet m k v).map Prod.fst, x ∈ m.map Prod.fst ∨ x = k := by
  intro x hx
  obtain ⟨p, hp, rfl⟩ := List.mem_map.mp hx
  rcases dictSet_mem m k v p hp with h | h
  · right; rw [h]
  · left; exact List.mem_map_of_mem _ h

theorem dictSet_keys_nodup {α β : Type} [DecidableEq α]
    (m : List (α × β)) (k : α) (v : β)
    (h : (m.map Prod.fst).Nodup) :
    ((dictSet m k v).map Prod.fst).Nodup := by
  induction m with
  | nil => simp [dictSet]
  | cons q rest ih =>
    obtain ⟨k', v'⟩ := q
    simp only [List.map_cons, List.nodup_cons] at h
    simp only [dictSet]
    by_cases hk : k' = k
    · rw [if_pos hk]
      simp only [List.map_cons, List.nodup_cons]
      exact ⟨by rw [← hk]; exact h.1, h.2⟩
    · rw [if_neg hk]
      simp only [List.map_cons, List.nodup_cons]
      constructor
      · intro hc
        rcases dictSet_keys_subset rest k v k' hc with h' | h'
        · exact h.1 h'
        · exact hk h'
      · exact ih h.2

theorem dictSet_of_not_mem_keys {α β : Type} [DecidableEq α]
    (m : List (α × β)) (k : α) (v : β)
    (h : k ∉ m.map Prod.fst) :
    dictSet m k v = m ++ [(k, v)] := by
  induction m with
  | nil => rfl
  | cons q rest ih =>
    obtain ⟨k', v'⟩ := q
    simp only [List.map_cons, List.mem_cons] at h
    push_neg at h
    simp only [dictSet]
    rw [if_neg (fun hc => h.1 hc.symm), ih h.2, List.cons_append]

/-! ### Persisted pool entries (output shape of `restore_schedule`) -/

structure PoolEntry where
  date : List Char
  day : List Char
  area_assignments : List (List Char × List (List Char))
  note : List Char
  deriving DecidableEq

/-- Calendar dates as `datetime.date` triples. -/
structure PyDate where
  year : Nat
  month : Nat
  day : Nat
  deriving DecidableEq

def natChars (n : Nat) : List Char := (toString n).data

def padZero (w : Nat) (s : List Char) : List Char :=
  List.replicate (w - s.length) '0' ++ s

/-- `start_date.strftime("%Y-%m-%d")`. -/
def formatDate (d : PyDate) : List Char :=
  padZero 4 (natChars d.year) ++ ['-'] ++ padZero 2 (natChars d.month) ++
    ['-'] ++ padZero 2 (natChars d.day)

/-! ### `dedupe_pool_by_date` -/

def poolKeyRel (a b : (List Char) × PoolEntry) : Prop := strLe a.1 b.1 = true

instance : DecidableRel poolKeyRel :=
  fun _ _ => inferInstanceAs (Decidable (_ = true))

instance : IsTotal ((List Char) × PoolEntry) poolKeyRel :=
  ⟨fun a b => strLe_total a.1 b.1⟩

instance : IsTrans ((List Char) × PoolEntry) poolKeyRel :=
  ⟨fun _ _ _ => strLe_trans⟩

/-- The `by_date` dict built by `dedupe_pool_by_date`: keyed by the stripped
date string, blank keys skipped, later entries overwriting earlier ones. -/
def poolByDate (entries : List PoolEntry) : List ((List Char) × PoolEntry) :=
  entries.foldl
    (fun acc e =>
      if pyStrip e.date = [] then acc else dictSet acc (pyStrip e.date) e)
    []

def dedupe_pool_by_date (entries : List PoolEntry) : List PoolEntry :=
  (List.insertionSort poolKeyRel (poolByDate entries)).map Prod.snd

theorem poolByDate_go_mem (l : List PoolEntry) :
    ∀ (acc : List ((List Char) × PoolEntry)) p,
      p ∈ l.foldl
        (fun acc e =>
          if pyStrip e.date = [] then acc else dictSet acc (pyStrip e.date) e)
        acc →
      p ∈ acc ∨ (p.1 = pyStrip p.2.date ∧ p.1 ≠ [] ∧ p.2 ∈ l) := by
  induction l with
  | nil => intro acc p hp; left; exact hp
  | cons e rest ih =>
    intro acc p hp
    rw [List.foldl_cons] at hp
    rcases ih _ p hp with h | h
    · by_cases hk : pyStrip e.date = []
      · rw [if_pos hk] at h
        left; exact h
      · rw [if_neg hk] at h
        rcases dictSet_mem acc (pyStrip e.date) e p h with h' | h'
        · right
          rw [h']
          exact ⟨rfl, hk, List.mem_cons_self _ _⟩
        · left; exact h'
    · right; exact ⟨h.1, h.2.1, List.mem_cons_of_mem _ h.2.2⟩

theorem poolByDate_mem {p : (List Char) × PoolEntry} {l : List PoolEntry}
    (hp : p ∈ poolByDate l) :
    p.1 = pyStrip p.2.date ∧ p.1 ≠ [] ∧ p.2 ∈ l := by
  rcases poolByDate_go_mem l [] p hp with h | h
  · simp at h
  · exact h

theorem poolByDate_keys_nodup (l : List PoolEntry) :
    ((poolByDate l).map Prod.fst).Nodup := by
  have hgen : ∀ (ll : List PoolEntry) (acc : List ((List Char) × PoolEntry)),
      (acc.map Prod.fst).Nodup →
      ((ll.foldl
        (fun acc e =>
          if pyStrip e.date = [] then acc else dictSet acc (pyStrip e.date) e)
        acc).map Prod.fst).Nodup := by
    intro ll
    induction ll with
    | nil => intro acc h; exact h
    | cons e rest ih =>
      intro acc h
      rw [List.foldl_cons]
      apply ih
      by_cases hk : pyStrip e.date = []
      · rw [if_pos hk]; exact h
      · rw [if_neg hk]; exact dictSet_keys_nodup _ _ _ h
  exact hgen l [] (by simp)

theorem dedupe_mem {e : PoolEntry} {l : List PoolEntry}
    (h : e ∈ dedupe_pool_by_date l) : e ∈ l := by
  unfold dedupe_pool_by_date at h
  obtain ⟨p, hp, rfl⟩ := List.mem_map.mp h
  have hp' : p ∈ poolByDate l :=
    (List.perm_insertionSort poolKeyRel (poolByDate l)).mem_iff.mp hp
  exact (poolByDate_mem hp').2.2

theorem dedupe_pairwise (l : List PoolEntry) :
    (dedupe_pool_by_date l).Pairwise
      (fun a b => strLt (pyStrip a.date) (pyStrip b.date) = true) := by
  unfold dedupe_pool_by_date
  rw [List.pairwise_map]
  have hsorted : List.Sorted poolKeyRel
      (List.insertionSort poolKeyRel (poolByDate l)) :=
    List.sorted_insertionSort poolKeyRel (poolByDate l)
  have hperm : List.Perm (List.insertionSort poolKeyRel (poolByDate l))
      (poolByDate l) :=
    List.perm_insertionSort poolKeyRel (poolByDate l)
  have hkeys : ((List.insertionSort poolKeyRel (poolByDate l)).map
      Prod.fst).Nodup :=
    (hperm.map Prod.fst).nodup_iff.mpr (poolByDate_keys_nodup l)
  have hkeysne : (List.insertionSort poolKeyRel (poolByDate l)).Pairwise
      (fun a b => a.1 ≠ b.1) := List.pairwise_map.mp hkeys
  have hcomb := hsorted.and hkeysne
  refine hcomb.imp_of_mem ?_
  intro a b ha hb hab
  have hkeya := (poolByDate_mem (hperm.mem_iff.mp ha)).1
  have hkeyb := (poolByDate_mem (hperm.mem_iff.mp hb)).1
  have := strLt_of_strLe_of_ne hab.1 hab.2
  rw [hkeya, hkeyb] at this
  exact this

theorem poolByDate_eq_map :
    ∀ (l : List PoolEntry) (acc : List ((List Char) × PoolEntry)),
      (∀ e ∈ l, pyStrip e.date ≠ []) →
      (∀ e ∈ l, ∀ k ∈ acc.map Prod.fst, k ≠ pyStrip e.date) →
      l.Pairwise (fun a b => strLt (pyStrip a.date) (pyStrip b.date) = true) →
      l.foldl
        (fun acc e =>
          if pyStrip e.date = [] then acc else dictSet acc (pyStrip e.date) e)
        acc = acc ++ l.map (fun e => (pyStrip e.date, e)) := by
  intro l
  induction l with
  | nil => intro acc _ _ _; simp
  | cons e rest ih =>
    intro acc hne hfresh hpw
    rw [List.foldl_cons,
      if_neg (hne e (List.mem_cons_self _ _)),
      dictSet_of_not_mem_keys _ _ _
        (fun hc => hfresh e (List.mem_cons_self _ _) _ hc rfl)]
    rw [ih (acc ++ [(pyStrip e.date, e)])
      (fun x hx => hne x (List.mem_cons_of_mem _ hx))
      ?_ hpw.of_cons]
    · simp
    · intro x hx k hk
      rw [List.map_append, List.mem_append] at hk
      rcases hk with hk | hk
      · exact hfresh x (List.mem_cons_of_mem _ hx) k hk
      · simp at hk
        rw [hk]
        exact strLt_ne (List.rel_of_pairwise_cons hpw hx)

theorem dedupe_eq_self (l : List PoolEntry)
    (hne : ∀ e ∈ l, pyStrip e.date ≠ [])
    (hpw : l.Pairwise
      (fun a b => strLt (pyStrip a.date) (pyStrip b.date) = true)) :
    dedupe_pool_by_date l = l := by
  unfold dedupe_pool_by_date
  have h1 : poolByDate l = l.map (fun e => (pyStrip e.date, e)) := by
    have := poolByDate_eq_map l [] hne (by simp) hpw
    simpa [poolByDate] using this
  rw [h1]
  have hsorted : List.Sorted poolKeyRel (l.map (fun e => (pyStrip e.date, e))) := by
    rw [List.Sorted, List.pairwise_map]
    exact hpw.imp (fun h => strLe_of_strLt h)
  rw [hsorted.insertionSort_eq, List.map_map]
  have hcomp : (Prod.snd ∘ fun e : PoolEntry => (pyStrip e.date, e)) = id := rfl
  rw [hcomp, List.map_id]

/-! ### `merge_schedule_pool` -/

def merge_schedule_pool (pool restored : List PoolEntry)
    (apply_mode : List Char) (start_date : PyDate) : List PoolEntry :=
  if apply_mode = ("append").data then
    dedupe_pool_by_date (pool ++ restored)
  else if apply_mode = ("replace_all").data then
    dedupe_pool_by_date restored
  else if apply_mode = ("replace_future").data then
    dedupe_pool_by_date
      ((pool.filter fun x => strLt x.date (formatDate start_date)) ++ restored)
  else if apply_mode = ("replace_overlap").data then
    match restored with
    | [] => dedupe_pool_by_date pool
    | r :: rs =>
      dedupe_pool_by_date
        ((pool.filter fun x =>
            strLt x.date (formatDate start_date) ||
              strLt (rs.getLastD r).date x.date) ++ (r :: rs))
  else
    dedupe_pool_by_date (pool ++ restored)

theorem dedupe_pairwise_strong (l : List PoolEntry) :
    (dedupe_pool_by_date l).Pairwise
      (fun a b => strLt (pyStrip a.date) (pyStrip b.date) = true ∧
        a.date ≠ b.date) := by
  refine (dedupe_pairwise l).imp ?_
  intro a b h
  refine ⟨h, fun he => ?_⟩
  rw [he, strLt_irrefl] at h
  simp at h

/-- C2: For every existing pool, every list of new entries, every start date
and every apply mode, the pool returned by `merge_schedule_pool` is strictly
ascending in the date key (the stripped date string), and in particular it
contains at most one entry per date string. -/
theorem C2_merge_schedule_pool_sorted_unique (pool restored : List PoolEntry)
    (apply_mode : List Char) (start_date : PyDate) :
    (merge_schedule_pool pool restored apply_mode start_date).Pairwise
      (fun a b => strLt (pyStrip a.date) (pyStrip b.date) = true ∧
        a.date ≠ b.date) := by
  unfold merge_schedule_pool
  split_ifs <;> (try split) <;> exact dedupe_pairwise_strong _

/-- C10: calling `merge_schedule_pool` with any apply mode other than
append, replace_all, replace_future and replace_overlap returns exactly the
same pool as calling it with apply mode append on the same arguments. -/
theorem C10_merge_schedule_pool_unknown_mode (pool restored : List PoolEntry)
    (apply_mode : List Char) (start_date : PyDate)
    (h1 : apply_mode ≠ ("append").data)
    (h2 : apply_mode ≠ ("replace_all").data)
    (h3 : apply_mode ≠ ("replace_future").data)
    (h4 : apply_mode ≠ ("replace_overlap").data) :
    merge_schedule_pool pool restored apply_mode start_date =
      merge_schedule_pool pool restored (("append").data) start_date := by
  unfold merge_schedule_pool
  rw [if_neg h1, if_neg h2, if_neg h3, if_neg h4, if_pos rfl]

/-- C10 witness: the unrecognized mode "patch" behaves exactly like append
on a concrete pool. -/
theorem C10_witness :
    merge_schedule_pool [⟨("2026-02-20").data, ("Fri").data, [], []⟩] []
        (("patch").data) ⟨2026, 2, 20⟩ =
      merge_schedule_pool [⟨("2026-02-20").data, ("Fri").data, [], []⟩] []
        (("append").data) ⟨2026, 2, 20⟩ :=
  C10_merge_schedule_pool_unknown_mode _ _ _ _
    (by decide) (by decide) (by decide) (by decide)

def overlapPoolA : PoolEntry := ⟨("2026-01-02").data, ("Fri").data, [], []⟩

def overlapPoolB : PoolEntry := ⟨("2026-01-01").data, ("Thu").data, [], []⟩

/-- C7 counterexample: `replace_overlap` with an empty new-entries list does
NOT return the original pool unchanged: the engine re-keys by date, so an
out-of-order pool comes back re-sorted. -/
theorem C7_counterexample :
    merge_schedule_pool [overlapPoolA, overlapPoolB] []
        (("replace_overlap").data) ⟨2026, 1, 1⟩ ≠
      [overlapPoolA, overlapPoolB] := by decide

/-- C7 (amended): `replace_overlap` with an empty new-entries list returns
`dedupe_pool_by_date pool` (the pool re-keyed by date ascending); when the
pool already satisfies the pool invariant (non-blank, strictly ascending
stripped dates) it is returned unchanged, with the same entries in the same
order. -/
theorem C7_replace_overlap_empty (pool : List PoolEntry) (start_date : PyDate) :
    merge_schedule_pool pool [] (("replace_overlap").data) start_date =
      dedupe_pool_by_date pool ∧
    ((∀ e ∈ pool, pyStrip e.date ≠ []) →
      pool.Pairwise
        (fun a b => strLt (pyStrip a.date) (pyStrip b.date) = true) →
      merge_schedule_pool pool [] (("replace_overlap").data) start_date =
        pool) := by
  have hmain : merge_schedule_pool pool [] (("replace_overlap").data)
      start_date = dedupe_pool_by_date pool := by
    unfold merge_schedule_pool
    rw [if_neg (by decide), if_neg (by decide), if_neg (by decide), if_pos rfl]
  exact ⟨hmain, fun hne hpw => by rw [hmain]; exact dedupe_eq_self pool hne hpw⟩

/-- C7 witness: a well-formed two-entry pool is returned unchanged by
`replace_overlap` with no new entries. -/
theorem C7_witness :
    merge_schedule_pool
        [⟨("2026-03-01").data, ("Sun").data, [], []⟩,
          ⟨("2026-03-02").data, ("Mon").data, [], []⟩] []
        (("replace_overlap").data) ⟨2026, 3, 1⟩ =
      [⟨("2026-03-01").data, ("Sun").data, [], []⟩,
        ⟨("2026-03-02").data, ("Mon").data, [], []⟩] :=
  (C7_replace_overlap_empty _ _).2 (by decide) (by decide)

/-- C6 (amended): in replace_future mode every entry of the result either
comes from the new entries or is an old pool entry whose date is strictly
before the start date; an old entry with earlier date may nevertheless be
dropped by the final by-date deduplication. -/
theorem C6_replace_future (pool restored : List PoolEntry)
    (start_date : PyDate) :
    ∀ e ∈ merge_schedule_pool pool restored (("replace_future").data)
        start_date,
      e ∈ restored ∨
        (e ∈ pool ∧ strLt e.date (formatDate start_date) = true) := by
  intro e he
  have hmode : merge_schedule_pool pool restored (("replace_future").data)
      start_date =
      dedupe_pool_by_date
        ((pool.filter fun x => strLt x.date (formatDate start_date)) ++
          restored) := by
    unfold merge_schedule_pool
    rw [if_neg (by decide), if_neg (by decide), if_pos rfl]
  rw [hmode] at he
  have hin := dedupe_mem he
  rw [List.mem_append] at hin
  rcases hin with h | h
  · right
    rw [List.mem_filter] at h
    exact ⟨h.1, h.2⟩
  · left; exact h

def futurePoolA : PoolEntry :=
  ⟨("2026-01-05").data, ("Mon").data, [], ("first").data⟩

def futurePoolB : PoolEntry :=
  ⟨("2026-01-05").data, ("Mon").data, [], ("second").data⟩

/-- C6 counterexample: an old pool entry whose date IS strictly before the
start date is nevertheless not kept — the by-date deduplication keeps only
the later of two same-date old entries. -/
theorem C6_counterexample :
    strLt futurePoolA.date (formatDate ⟨2026, 2, 1⟩) = true ∧
    futurePoolA ∈ [futurePoolA, futurePoolB] ∧
    futurePoolA ∉ merge_schedule_pool [futurePoolA, futurePoolB] []
      (("replace_future").data) ⟨2026, 2, 1⟩ := by decide

/-- C6 witness: instantiating the replace_future theorem on a concrete
one-entry pool. -/
theorem C6_witness :
    futurePoolA ∈ ([] : List PoolEntry) ∨
      (futurePoolA ∈ [futurePoolA] ∧
        strLt futurePoolA.date (formatDate ⟨2026, 2, 1⟩) = true) :=
  C6_replace_future [futurePoolA] [] ⟨2026, 2, 1⟩ futurePoolA (by decide)

/-! ### Normalized schedule entries and the fairness ledger -/

/-- Output shape of `normalize_multi_area_schedule_ids`: a date string, an
`area_ids` dict mapping area names to id lists, and a note. -/
structure NormEntry where
  date : List Char
  area_ids : List (List Char × List Int)
  note : List Char
  deriving DecidableEq

/-- Python `set.add`: sets modelled as duplicate-free lists. -/
def pySetAdd (s : List Int) (x : Int) : List Int :=
  if x ∈ s then s else s ++ [x]

/-- Python `set(l)`. -/
def pySetOfList (l : List Int) : List Int := l.foldl pySetAdd []

theorem mem_pySetAdd (s : List Int) (y x : Int) :
    x ∈ pySetAdd s y ↔ x ∈ s ∨ x = y := by
  unfold pySetAdd
  by_cases hy : y ∈ s
  · rw [if_pos hy]
    constructor
    · exact Or.inl
    · rintro (h | rfl)
      · exact h
      · exact hy
  · rw [if_neg hy]
    simp

theorem nodup_pySetAdd (s : List Int) (y : Int) (h : s.Nodup) :
    (pySetAdd s y).Nodup := by
  unfold pySetAdd
  by_cases hy : y ∈ s
  · rw [if_pos hy]; exact h
  · rw [if_neg hy]
    simp [List.nodup_append, h, hy]

theorem mem_foldl_pySetAdd :
    ∀ (l : List Int) (init : List Int) (x : Int),
      x ∈ l.foldl pySetAdd init ↔ x ∈ init ∨ x ∈ l := by
  intro l
  induction l with
  | nil => simp
  | cons y rest ih =>
    intro init x
    rw [List.foldl_cons, ih, mem_pySetAdd]
    simp only [List.mem_cons]
    tauto

theorem nodup_foldl_pySetAdd :
    ∀ (l : List Int) (init : List Int), init.Nodup →
      (l.foldl pySetAdd init).Nodup := by
  intro l
  induction l with
  | nil => intro init h; exact h
  | cons y rest ih =>
    intro init h
    rw [List.foldl_cons]
    exact ih _ (nodup_pySetAdd _ _ h)

theorem nodup_pySetOfList (l : List Int) : (pySetOfList l).Nodup :=
  nodup_foldl_pySetAdd l [] (by simp)

theorem mem_pySetOfList (l : List Int) (x : Int) :
    x ∈ pySetOfList l ↔ x ∈ l := by
  rw [pySetOfList, mem_foldl_pySetAdd]
  simp

/-- The `scheduled_set` loop of `recover_missing_debts` (and of the credit
block of `main`): all ids placed into any area on any day of the run. -/
def scheduledSet (normalized : List NormEntry) : List Int :=
  normalized.foldl
    (fun acc e => e.area_ids.foldl (fun a2 p => p.2.foldl pySetAdd a2) acc) []

theorem mem_areaFoldl :
    ∀ (l : List ((List Char) × List Int)) (init : List Int) (x : Int),
      x ∈ l.foldl (fun a2 p => p.2.foldl pySetAdd a2) init ↔
        x ∈ init ∨ ∃ p ∈ l, x ∈ p.2 := by
  intro l
  induction l with
  | nil => simp
  | cons q rest ih =>
    intro init x
    rw [List.foldl_cons, ih, mem_foldl_pySetAdd]
    simp only [List.mem_cons]
    constructor
    · rintro ((h | h) | ⟨p, hp, hx⟩)
      · left; exact h
      · right; exact ⟨q, Or.inl rfl, h⟩
      · right; exact ⟨p, Or.inr hp, hx⟩
    · rintro (h | ⟨p, (rfl | hp), hx⟩)
      · left; left; exact h
      · left; right; exact hx
      · right; exact ⟨p, hp, hx⟩

theorem mem_scheduledSet (normalized : List NormEntry) (x : Int) :
    x ∈ scheduledSet normalized ↔
      ∃ e ∈ normalized, ∃ p ∈ e.area_ids, x ∈ p.2 := by
  have houter : ∀ (l : List NormEntry) (init : List Int) (x : Int),
      x ∈ l.foldl
        (fun acc e => e.area_ids.foldl (fun a2 p => p.2.foldl pySetAdd a2) acc)
        init ↔
        x ∈ init ∨ ∃ e ∈ l, ∃ p ∈ e.area_ids, x ∈ p.2 := by
    intro l
    induction l with
    | nil => simp
    | cons e rest ih =>
      intro init x
      rw [List.foldl_cons, ih, mem_areaFoldl]
      simp only [List.mem_cons]
      constructor
      · rintro ((h | h) | ⟨e', he', hp⟩)
        · left; exact h
        · right; exact ⟨e, Or.inl rfl, h⟩
        · right; exact ⟨e', Or.inr he', hp⟩
      · rintro (h | ⟨e', (rfl | he'), hp⟩)
        · left; left; exact h
        · left; right; exact hp
        · right; exact ⟨e', he', hp⟩
  rw [scheduledSet.eq_def, houter]
  simp

theorem mem_condAddFoldl (sched : List Int) :
    ∀ (l : List Int) (init : List Int) (x : Int),
      x ∈ l.foldl
        (fun s pid => if pid ∈ sched then s else pySetAdd s pid) init ↔
        x ∈ init ∨ (x ∈ l ∧ x ∉ sched) := by
  intro l
  induction l with
  | nil => simp
  | cons pid rest ih =>
    intro init x
    rw [List.foldl_cons, ih]
    by_cases hpid : pid ∈ sched
    · rw [if_pos hpid]
      simp only [List.mem_cons]
      constructor
      · rintro (h | ⟨hx, hns⟩)
        · left; exact h
        · right; exact ⟨Or.inr hx, hns⟩
      · rintro (h | ⟨(rfl | hx), hns⟩)
        · left; exact h
        · exact absurd hpid hns
        · right; exact ⟨hx, hns⟩
    · rw [if_neg hpid]
      rw [mem_pySetAdd]
      simp only [List.mem_cons]
      constructor
      · rintro ((h | rfl) | ⟨hx, hns⟩)
        · left; exact h
        · right; exact ⟨Or.inl rfl, hpid⟩
        · right; exact ⟨Or.inr hx, hns⟩
      · rintro (h | ⟨(rfl | hx), hns⟩)
        · left; left; exact h
        · left; right; rfl
        · right; exact ⟨hx, hns⟩

theorem nodup_condAddFoldl (sched : List Int) :
    ∀ (l : List Int) (init : List Int), init.Nodup →
      (l.foldl
        (fun s pid => if pid ∈ sched then s else pySetAdd s pid) init).Nodup := by
  intro l
  induction l with
  | nil => intro init h; exact h
  | cons pid rest ih =>
    intro init h
    rw [List.foldl_cons]
    apply ih
    by_cases hpid : pid ∈ sched
    · rw [if_pos hpid]; exact h
    · rw [if_neg hpid]; exact nodup_pySetAdd _ _ h

/-- `recover_missing_debts`: start from the model-reported new debts, add
back every original debt that was not actually scheduled, remove every
scheduled id, and return the set sorted. -/
def recover_missing_debts
    (original_debt_list new_debt_ids_from_llm : List Int)
    (normalized_schedule : List NormEntry) : List Int :=
  List.insertionSort (· ≤ ·)
    ((original_debt_list.foldl
        (fun s pid =>
          if pid ∈ scheduledSet normalized_schedule then s
          else pySetAdd s pid)
        (pySetOfList new_debt_ids_from_llm)).filter
      (fun x => x ∉ scheduledSet normalized_schedule))

/-- The credit-list persistence block of `main`: keep the model-reported
remaining credits, plus every original credit whose id was not scheduled. -/
def reconcile_credits (credit_list new_credit_list : List Int)
    (normalized_ids : List NormEntry) : List Int :=
  List.insertionSort (· ≤ ·)
    (credit_list.foldl
      (fun s cid =>
        if cid ∈ scheduledSet normalized_ids then s else pySetAdd s cid)
      (pySetOfList new_credit_list))

theorem mem_sortInts (l : List Int) (x : Int) :
    x ∈ List.insertionSort (· ≤ ·) l ↔ x ∈ l :=
  (List.perm_insertionSort _ _).mem_iff

theorem sorted_sortInts (l : List Int) (h : l.Nodup) :
    List.Sorted (· < ·) (List.insertionSort (· ≤ ·) l) := by
  have hs : List.Sorted (· ≤ ·) (List.insertionSort (· ≤ ·) l) :=
    List.sorted_insertionSort _ _
  have hn : (List.insertionSort (· ≤ ·) l).Nodup :=
    (List.perm_insertionSort _ _).nodup_iff.mpr h
  exact hs.lt_of_le hn

/-- C1: for every original debt list, model-reported new-debt list and
normalized schedule, `recover_missing_debts` returns exactly the set
(model-reported new debt ∪ original debt ids not occurring in any area
list) minus all scheduled ids, as a sorted duplicate-free list; and on
original debt [1,2], new debt [3] and a schedule placing only id 1 it
returns [2,3]. -/
theorem C1_recover_missing_debts
    (original_debt_list new_debt_ids_from_llm : List Int)
    (normalized_schedule : List NormEntry) :
    List.Sorted (· < ·)
        (recover_missing_debts original_debt_list new_debt_ids_from_llm
          normalized_schedule) ∧
    (∀ x : Int,
      x ∈ recover_missing_debts original_debt_list new_debt_ids_from_llm
          normalized_schedule ↔
        ((x ∈ new_debt_ids_from_llm ∨
            (x ∈ original_debt_list ∧
              ¬ ∃ e ∈ normalized_schedule, ∃ p ∈ e.area_ids, x ∈ p.2)) ∧
          ¬ ∃ e ∈ normalized_schedule, ∃ p ∈ e.area_ids, x ∈ p.2)) ∧
    recover_missing_debts [1, 2] [3]
        [⟨("2026-02-20").data, [(("A").data, [1])], []⟩] = [2, 3] := by
  refine ⟨?_, fun x => ?_, by decide⟩
  · apply sorted_sortInts
    apply List.Nodup.filter
    exact nodup_condAddFoldl _ _ _ (nodup_pySetOfList _)
  · rw [recover_missing_debts.eq_def, mem_sortInts]
    simp only [List.mem_filter, decide_eq_true_eq]
    rw [mem_condAddFoldl, mem_pySetOfList]
    simp only [mem_scheduledSet]

/-- C4 counterexample: an id the model reports in `new_credit_ids` stays in
the persisted credit list even though it was scheduled this run, violating
the claimed mutual-exclusion for credits. -/
theorem C4_counterexample :
    (1 : Int) ∈ scheduledSet [⟨("2026-02-20").data, [(("A").data, [1])], []⟩] ∧
    (1 : Int) ∈ reconcile_credits [] [1]
      [⟨("2026-02-20").data, [(("A").data, [1])], []⟩] := by decide

/-- C4 (amended): after reconciliation the persisted debt list contains no
scheduled id, and the persisted credit list is exactly the model-reported
new credits plus the original credits that were not scheduled — original
credits found in the scheduled set are removed, but a scheduled id that the
model reports in `new_credit_ids` is kept. -/
theorem C4_reconciliation :
    (∀ (original_debt_list new_debt_ids_from_llm : List Int)
        (normalized_schedule : List NormEntry) (x : Int),
      x ∈ scheduledSet normalized_schedule →
        x ∉ recover_missing_debts original_debt_list new_debt_ids_from_llm
          normalized_schedule) ∧
    (∀ (credit_list new_credit_list : List Int)
        (normalized_ids : List NormEntry) (x : Int),
      x ∈ reconcile_credits credit_list new_credit_list normalized_ids ↔
        x ∈ new_credit_list ∨
          (x ∈ credit_list ∧ x ∉ scheduledSet normalized_ids)) := by
  constructor
  · intro orig new norm x hx hmem
    rw [recover_missing_debts.eq_def, mem_sortInts] at hmem
    simp only [List.mem_filter, decide_eq_true_eq] at hmem
    exact hmem.2 hx
  · intro credit new norm x
    rw [reconcile_credits.eq_def, mem_sortInts, mem_condAddFoldl,
      mem_pySetOfList]

/-- C4 witness: for a run that scheduled id 1, the persisted debt list
produced from debts [1,2] and model report [3] does not contain 1. -/
theorem C4_witness :
    (1 : Int) ∉ recover_missing_debts [1, 2] [3]
      [⟨("2026-02-21").data, [(("A").data, [1])], []⟩] :=
  C4_reconciliation.1 [1, 2] [3]
    [⟨("2026-02-21").data, [(("A").data, [1])], []⟩] 1 (by decide)

/-! ### `anonymize_instruction` -/

/-- One pass of `re.sub(re.escape(pat), repl, s)` (literal pattern) and of
`str.replace(pat, repl)`: non-overlapping leftmost replacement.  The fuel is
one more than the length of `s`; each step consumes at least one character
of `s`, so the fuel never runs out. -/
def replaceAllF : Nat → List Char → List Char → List Char → List Char
  | 0, _, _, s => s
  | fuel + 1, pat, repl, s =>
    if pat = [] then
      match s with
      | [] => repl
      | c :: rest => repl ++ c :: replaceAllF fuel pat repl rest
    else if pat.isPrefixOf s then
      repl ++ replaceAllF fuel pat repl (s.drop pat.length)
    else
      match s with
      | [] => []
      | c :: rest => c :: replaceAllF fuel pat repl rest

def replaceAll (pat repl s : List Char) : List Char :=
  replaceAllF (s.length + 1) pat repl s

theorem replaceAllF_succ (fuel : Nat) (pat repl s : List Char) :
    replaceAllF (fuel + 1) pat repl s =
      if pat = [] then
        (match s with
          | [] => repl
          | c :: rest => repl ++ c :: replaceAllF fuel pat repl rest)
      else if pat.isPrefixOf s then
        repl ++ replaceAllF fuel pat repl (s.drop pat.length)
      else
        (match s with
          | [] => []
          | c :: rest => c :: replaceAllF fuel pat repl rest) := rfl

theorem replaceAllF_not_infix :
    ∀ (fuel : Nat) (pat repl s : List Char), s.length < fuel →
      ¬ (pat <:+: s) → replaceAllF fuel pat repl s = s := by
  intro fuel
  induction fuel with
  | zero => intro pat repl s hlen _; omega
  | succ n ih =>
    intro pat repl s hlen hinf
    rw [replaceAllF_succ]
    by_cases hpat : pat = []
    · exact absurd (hpat ▸ List.nil_infix) hinf
    · rw [if_neg hpat]
      by_cases hpre : pat.isPrefixOf s = true
      · exact absurd (List.isPrefixOf_iff_prefix.mp hpre).isInfix hinf
      · rw [if_neg hpre]
        cases s with
        | nil => rfl
        | cons c rest =>
          have hrest : ¬ (pat <:+: rest) :=
            fun h => hinf (List.infix_cons h)
          have hlen' : rest.length < n := by
            simp only [List.length_cons] at hlen
            omega
          simp only [ih pat repl rest hlen' hrest]

theorem replaceAll_not_infix (pat repl s : List Char)
    (h : ¬ (pat <:+: s)) : replaceAll pat repl s = s :=
  replaceAllF_not_infix _ _ _ _ (Nat.lt_succ_self _) h

/-- The unique non-printable placeholder used for name index `idx`. -/
def PLACEHOLDER (idx : Nat) : List Char :=
  '\x00' :: ("PLACEHOLDER_").data ++ natChars idx ++ ['\x00']

theorem nul_mem_PLACEHOLDER (idx : Nat) : '\x00' ∈ PLACEHOLDER idx :=
  List.mem_cons_self _ _

/-- Names sorted by length, longest first (Python
`sorted(keys, key=len, reverse=True)`, a stable descending sort). -/
def lenDescRel (a b : List Char) : Prop := b.length ≤ a.length

instance : DecidableRel lenDescRel :=
  fun _ _ => inferInstanceAs (Decidable (_ ≤ _))

/-- `anonymize_instruction`: replace every known name by a unique placeholder
(longest names first), then replace every placeholder by the name's id. -/
def anonymize_instruction (text : List Char)
    (name_to_id : List (List Char × Int)) : List Char :=
  if text = [] then text
  else
    (List.insertionSort lenDescRel (name_to_id.map Prod.fst)).enum.foldl
      (fun acc p =>
        replaceAll (PLACEHOLDER p.1)
          ((toString ((dictGet name_to_id p.2).getD 0)).data) acc)
      ((List.insertionSort lenDescRel (name_to_id.map Prod.fst)).enum.foldl
        (fun acc p => replaceAll p.2 (PLACEHOLDER p.1) acc) text)

theorem foldl_replace_names_id (t : List Char) :
    ∀ (l : List (Nat × List Char)), (∀ p ∈ l, ¬ (p.2 <:+: t)) →
      l.foldl (fun acc p => replaceAll p.2 (PLACEHOLDER p.1) acc) t = t := by
  intro l
  induction l with
  | nil => intro _; rfl
  | cons q rest ih =>
    intro h
    rw [List.foldl_cons,
      replaceAll_not_infix _ _ _ (h q (List.mem_cons_self _ _))]
    exact ih (fun p hp => h p (List.mem_cons_of_mem _ hp))

theorem foldl_replace_placeholders_id (t : List Char)
    (m : List (List Char × Int)) (hnul : ('\x00' : Char) ∉ t) :
    ∀ (l : List (Nat × List Char)),
      l.foldl
        (fun acc p =>
          replaceAll (PLACEHOLDER p.1)
            ((toString ((dictGet m p.2).getD 0)).data) acc)
        t = t := by
  intro l
  induction l with
  | nil => rfl
  | cons q rest ih =>
    have hninf : ¬ (PLACEHOLDER q.1 <:+: t) :=
      fun h => hnul (h.subset (nul_mem_PLACEHOLDER q.1))
    rw [List.foldl_cons, replaceAll_not_infix _ _ _ hninf]
    exact ih

/-- C5 counterexample: a (pathological) text containing none of the known
names is nevertheless modified: the second substitution pass rewrites text
that happens to equal an internal placeholder sequence. -/
theorem C5_counterexample :
    ¬ ((("王").data) <:+: ('\x00' :: ("PLACEHOLDER_0").data ++ ['\x00'])) ∧
    anonymize_instruction ('\x00' :: ("PLACEHOLDER_0").data ++ ['\x00'])
        [((("王").data), 1)] ≠
      '\x00' :: ("PLACEHOLDER_0").data ++ ['\x00'] := by decide

/-- C5 (amended): empty text is returned unchanged; text containing no known
name and no NUL placeholder-marker character is returned unchanged; and on
the map (王三 to 13, 王 to 1) the text 王三和王都要值日 becomes 13和1都要值日,
which contains "13" and "1" but never "113" — no substituted output is
re-matched by the shorter name. -/
theorem C5_anonymize_instruction :
    (∀ name_to_id, anonymize_instruction [] name_to_id = []) ∧
    (∀ (text : List Char) (name_to_id : List (List Char × Int)),
      (∀ n ∈ name_to_id.map Prod.fst, ¬ (n <:+: text)) →
      ('\x00' : Char) ∉ text →
      anonymize_instruction text name_to_id = text) ∧
    (anonymize_instruction (("王三和王都要值日").data)
        [((("王三").data), 13), ((("王").data), 1)] =
      ("13和1都要值日").data ∧
      (("13").data) <:+: (("13和1都要值日").data) ∧
      (("1").data) <:+: (("13和1都要值日").data) ∧
      ¬ ((("113").data) <:+: (("13和1都要值日").data))) := by
  refine ⟨fun name_to_id => rfl, ?_, by decide⟩
  intro text name_to_id hnames hnul
  by_cases htext : text = []
  · rw [htext, anonymize_instruction, if_pos rfl]
  · rw [anonymize_instruction, if_neg htext]
    rw [foldl_replace_names_id text _ ?_,
      foldl_replace_placeholders_id text name_to_id hnul]
    intro p hp
    apply hnames
    have hmem : p.2 ∈ List.insertionSort lenDescRel
        (name_to_id.map Prod.fst) := by
      have := List.mem_enum_iff_getElem?.mp hp
      exact List.getElem?_mem this
    exact (List.perm_insertionSort _ _).mem_iff.mp hmem

/-- C5 witness: text with no roster names and no NUL byte passes through
unchanged. -/
theorem C5_witness :
    anonymize_instruction (("今天值日").data) [((("张三").data), 7)] =
      ("今天值日").data :=
  C5_anonymize_instruction.2.1 (("今天值日").data) [((("张三").data), 7)]
    (by decide) (by decide)

/-! ### `build_calendar_anchor` -/

def isLeap (y : Nat) : Bool :=
  y % 4 = 0 && (y % 100 ≠ 0 || y % 400 = 0)

/-- `calendar.monthrange(y, m)[1]`: the number of days of month `m`. -/
def daysInMonth (y m : Nat) : Nat :=
  if m = 2 then (if isLeap y then 29 else 28)
  else if m = 4 ∨ m = 6 ∨ m = 9 ∨ m = 11 then 30
  else 31

/-- `d + timedelta(days=1)` on calendar dates. -/
def nextDay (d : PyDate) : PyDate :=
  if d.day < daysInMonth d.year d.month then ⟨d.year, d.month, d.day + 1⟩
  else if d.month < 12 then ⟨d.year, d.month + 1, 1⟩
  else ⟨d.year + 1, 1, 1⟩

/-- `d + timedelta(days=n)`. -/
def addDays (d : PyDate) (n : Nat) : PyDate := nextDay^[n] d

def digitsVal (l : List Char) : Nat :=
  l.foldl (fun acc c => acc * 10 + (c.toNat - 48)) 0

/-- Python `int(str)`: optional surrounding whitespace, optional sign, then
decimal digits. -/
def pyParseInt (s : List Char) : Option Int :=
  match pyStrip s with
  | [] => none
  | '+' :: rest =>
    if rest ≠ [] ∧ rest.all Char.isDigit then some (digitsVal rest : Int)
    else none
  | '-' :: rest =>
    if rest ≠ [] ∧ rest.all Char.isDigit then some (-(digitsVal rest : Int))
    else none
  | l => if l.all Char.isDigit then some (digitsVal l : Int) else none

/-- `(auto_run_mode or "Off").strip().lower()`. -/
def normalizeRunMode (auto_run_mode : List Char) : List Char :=
  pyLower (pyStrip (if auto_run_mode = [] then ("Off").data else auto_run_mode))

/-- The scheduling span in days computed by `build_calendar_anchor`. -/
def calendarSpanDays (auto_run_mode auto_run_parameter : List Char)
    (per_day active_count : Nat) (today : PyDate) : Nat :=
  if normalizeRunMode auto_run_mode = ("weekly").data then 7
  else if normalizeRunMode auto_run_mode = ("monthly").data then
    daysInMonth today.year today.month
  else if normalizeRunMode auto_run_mode = ("custom").data then
    match pyParseInt auto_run_parameter with
    | some n => (max n 1).toNat
    | none => 14
  else if 0 < per_day ∧ 0 < active_count then
    max (active_count / per_day + 1) 7
  else 7

/-- The date window stated by the calendar anchor block. -/
structure CalendarAnchor where
  span_days : Nat
  start_date : PyDate
  end_date : PyDate
  deriving DecidableEq

/-- `build_calendar_anchor` (the date-window computation; the function's
textual rendering carries exactly these values). -/
def build_calendar_anchor (auto_run_mode auto_run_parameter : List Char)
    (per_day active_count : Nat) (today : PyDate) : CalendarAnchor :=
  ⟨calendarSpanDays auto_run_mode auto_run_parameter per_day active_count
      today,
    today,
    addDays today
      (calendarSpanDays auto_run_mode auto_run_parameter per_day active_count
          today - 1)⟩

/-- C8: the scheduling span is 7 for weekly cadence, the length of the
current month for monthly, the parameter parsed as a positive integer
(clamped to at least 1, defaulting to 14 when parsing fails) for custom,
and max(activeCount/perDay + 1, 7) for off or unknown cadence; the stated
end date is the start date plus span minus one day. -/
theorem C8_build_calendar_anchor (auto_run_mode auto_run_parameter : List Char)
    (per_day active_count : Nat) (today : PyDate) :
    (normalizeRunMode auto_run_mode = ("weekly").data →
      (build_calendar_anchor auto_run_mode auto_run_parameter per_day
        active_count today).span_days = 7) ∧
    (normalizeRunMode auto_run_mode = ("monthly").data →
      (build_calendar_anchor auto_run_mode auto_run_parameter per_day
        active_count today).span_days =
        daysInMonth today.year today.month) ∧
    (normalizeRunMode auto_run_mode = ("custom").data →
      (build_calendar_anchor auto_run_mode auto_run_parameter per_day
        active_count today).span_days =
        (match pyParseInt auto_run_parameter with
          | some n => (max n 1).toNat
          | none => 14)) ∧
    (normalizeRunMode auto_run_mode ≠ ("weekly").data →
      normalizeRunMode auto_run_mode ≠ ("monthly").data →
      normalizeRunMode auto_run_mode ≠ ("custom").data →
      (build_calendar_anchor auto_run_mode auto_run_parameter per_day
        active_count today).span_days =
        max (active_count / per_day + 1) 7) ∧
    (build_calendar_anchor auto_run_mode auto_run_parameter per_day
      active_count today).start_date = today ∧
    (build_calendar_anchor auto_run_mode auto_run_parameter per_day
      active_count today).end_date =
      addDays today
        ((build_calendar_anchor auto_run_mode auto_run_parameter per_day
          active_count today).span_days - 1) := by
  refine ⟨?_, ?_, ?_, ?_, rfl, rfl⟩
  · intro h
    show calendarSpanDays _ _ _ _ _ = 7
    rw [calendarSpanDays, if_pos h]
  · intro h
    show calendarSpanDays _ _ _ _ _ = _
    have hw : normalizeRunMode auto_run_mode ≠ ("weekly").data := by
      rw [h]; decide
    rw [calendarSpanDays, if_neg hw, if_pos h]
  · intro h
    show calendarSpanDays _ _ _ _ _ = _
    have hw : normalizeRunMode auto_run_mode ≠ ("weekly").data := by
      rw [h]; decide
    have hm : normalizeRunMode auto_run_mode ≠ ("monthly").data := by
      rw [h]; decide
    rw [calendarSpanDays, if_neg hw, if_neg hm, if_pos h]
  · intro hw hm hc
    show calendarSpanDays _ _ _ _ _ = _
    rw [calendarSpanDays, if_neg hw, if_neg hm, if_neg hc]
    by_cases hcond : 0 < per_day ∧ 0 < active_count
    · rw [if_pos hcond]
    · rw [if_neg hcond]
      rcases not_and_or.mp hcond with h | h

      · have hz : per_day = 0 := by omega
        rw [hz, Nat.div_zero]
        omega
      · have hz : active_count = 0 := by omega
        rw [hz, Nat.zero_div]
        omega

/-- C8 witness: cadence mode " Weekly" (stripped and lowercased) yields a
span of 7 days. -/
theorem C8_witness :
    (build_calendar_anchor ((" Weekly").data) [] 2 10
      ⟨2026, 2, 20⟩).span_days = 7 :=
  (C8_build_calendar_anchor ((" Weekly").data) [] 2 10 ⟨2026, 2, 20⟩).1
    (by decide)

/-! ### `get_anchor_id` -/

/-- `datetime.strptime(s, "%Y-%m-%d").date()`: exactly four year digits, one
or two month digits (1 to 12), one or two day digits valid for that month. -/
def parseDate (s : List Char) : Option PyDate :=
  match s.splitOn '-' with
  | [ys, ms, ds] =>
    if ys.length = 4 ∧ ys.all Char.isDigit ∧
        1 ≤ ms.length ∧ ms.length ≤ 2 ∧ ms.all Char.isDigit ∧
        1 ≤ ds.length ∧ ds.length ≤ 2 ∧ ds.all Char.isDigit then
      if 1 ≤ digitsVal ms ∧ digitsVal ms ≤ 12 ∧ 1 ≤ digitsVal ds ∧
          digitsVal ds ≤ daysInMonth (digitsVal ys) (digitsVal ms) then
        some ⟨digitsVal ys, digitsVal ms, digitsVal ds⟩
      else none
    else none
  | _ => none

/-- Comparison key realizing `datetime.date` ordering (valid dates have
month and day below 100). -/
def dateKey (d : PyDate) : Nat := d.year * 10000 + d.month * 100 + d.day

def entryDateRel (a b : PoolEntry × PyDate) : Prop :=
  dateKey a.2 ≤ dateKey b.2

instance : DecidableRel entryDateRel :=
  fun _ _ => inferInstanceAs (Decidable (_ ≤ _))

/-- `get_pool_entries_with_date`: pool entries with parseable dates, sorted
by date (stable). -/
def get_pool_entries_with_date (pool : List PoolEntry) :
    List (PoolEntry × PyDate) :=
  List.insertionSort entryDateRel
    (pool.filterMap (fun e => (parseDate e.date).map (fun d => (e, d))))

/-- The inner loop body of `get_anchor_id`: from one assignment name list,
the id of its last (stripped) name if known and active. -/
def anchorFromNames (name_to_id : List (List Char × Int))
    (active_ids : List Int) (name_list : List (List Char)) : Option Int :=
  match name_list.getLast? with
  | none => none
  | some last_name =>
    match dictGet name_to_id (pyStrip last_name) with
    | none => none
    | some anchor => if anchor ∈ active_ids then some anchor else none

def anchorOfEntry (name_to_id : List (List Char × Int))
    (active_ids : List Int) (e : PoolEntry) : Option Int :=
  e.area_assignments.findSome?
    (fun p => anchorFromNames name_to_id active_ids p.2)

/-- The candidate window scanned by `get_anchor_id`: the whole pool in
append mode, otherwise only entries dated strictly before the start date. -/
def anchorCandidates (pool : List PoolEntry) (start_date : PyDate)
    (apply_mode : List Char) : List (PoolEntry × PyDate) :=
  if apply_mode = ("append").data then get_pool_entries_with_date pool
  else (get_pool_entries_with_date pool).filter
    (fun x => dateKey x.2 < dateKey start_date)

/-- `get_anchor_id`: scan the candidates backward for the first entry
yielding an anchor; fall back to the last active id (`active_ids[-1]`,
`none` modelling the crash on an empty roster). -/
def get_anchor_id (pool : List PoolEntry)
    (name_to_id : List (List Char × Int)) (active_ids : List Int)
    (start_date : PyDate) (apply_mode : List Char) : Option Int :=
  match (anchorCandidates pool start_date apply_mode).reverse.findSome?
      (fun x => anchorOfEntry name_to_id active_ids x.1) with
  | some a => some a
  | none => active_ids.getLast?

theorem sorted_getLast?_max :
    ∀ (l : List Int), List.Sorted (· ≤ ·) l → l ≠ [] →
      ∃ y, l.getLast? = some y ∧ y ∈ l ∧ ∀ x ∈ l, x ≤ y := by
  intro l
  induction l with
  | nil => intro _ h; exact absurd rfl h
  | cons a rest ih =>
    intro hs _
    cases rest with
    | nil => exact ⟨a, by simp, by simp, by simp⟩
    | cons b rs =>
      obtain ⟨y, hy, hmem, hle⟩ := ih hs.of_cons (by simp)
      refine ⟨y, ?_, List.mem_cons_of_mem _ hmem, ?_⟩
      · rw [List.getLast?_cons_cons]; exact hy
      · intro x hx
        rcases List.mem_cons.mp hx with rfl | hx
        · exact List.rel_of_sorted_cons hs y hmem
        · exact hle x hx

theorem findSome?_skip_none {α β : Type} (f : α → Option β) (b : β) :
    ∀ (l₂ : List α) (e : α) (l₃ : List α),
      (∀ x ∈ l₂, f x = none) → f e = some b →
      (l₂ ++ e :: l₃).findSome? f = some b := by
  intro l₂
  induction l₂ with
  | nil =>
    intro e l₃ _ he
    rw [List.nil_append, List.findSome?_cons, he]
  | cons x rest ih =>
    intro e l₃ hall he
    rw [List.cons_append, List.findSome?_cons,
      hall x (List.mem_cons_self _ _)]
    exact ih e l₃ (fun z hz => hall z (List.mem_cons_of_mem _ hz)) he

theorem anchorOfEntry_none_of_empty (name_to_id : List (List Char × Int))
    (active_ids : List Int) (e : PoolEntry)
    (h : ∀ p ∈ e.area_assignments, p.2 = ([] : List (List Char))) :
    anchorOfEntry name_to_id active_ids e = none := by
  unfold anchorOfEntry
  rw [List.findSome?_eq_none_iff]
  intro p hp
  rw [h p hp]
  rfl

/-- C9: the anchor id is found by scanning the candidate window (the whole
pool in append mode, otherwise the entries strictly before the start date)
backward for the most recent entry yielding a valid anchor — in particular
for the most recent entry with a non-empty assignment list when all later
candidates have only empty lists — and when no candidate yields an anchor
the highest active id is returned. -/
theorem C9_get_anchor_id (pool : List PoolEntry)
    (name_to_id : List (List Char × Int)) (active_ids : List Int)
    (start_date : PyDate) (apply_mode : List Char)
    (hsorted : List.Sorted (· ≤ ·) active_ids) (hne : active_ids ≠ []) :
    (apply_mode = ("append").data →
      anchorCandidates pool start_date apply_mode =
        get_pool_entries_with_date pool) ∧
    (apply_mode ≠ ("append").data →
      anchorCandidates pool start_date apply_mode =
        (get_pool_entries_with_date pool).filter
          (fun x => dateKey x.2 < dateKey start_date)) ∧
    ((∀ x ∈ anchorCandidates pool start_date apply_mode,
        anchorOfEntry name_to_id active_ids x.1 = none) →
      ∃ hi, get_anchor_id pool name_to_id active_ids start_date apply_mode =
          some hi ∧ hi ∈ active_ids ∧ ∀ a ∈ active_ids, a ≤ hi) ∧
    (∀ (c1 : List (PoolEntry × PyDate)) (e : PoolEntry × PyDate)
        (c2 : List (PoolEntry × PyDate)) (a : Int),
      anchorCandidates pool start_date apply_mode = c1 ++ e :: c2 →
      (∀ x ∈ c2, ∀ p ∈ x.1.area_assignments,
        p.2 = ([] : List (List Char))) →
      anchorOfEntry name_to_id active_ids e.1 = some a →
      get_anchor_id pool name_to_id active_ids start_date apply_mode =
        some a) := by
  refine ⟨?_, ?_, ?_, ?_⟩
  · intro h
    rw [anchorCandidates, if_pos h]
  · intro h
    rw [anchorCandidates, if_neg h]
  · intro hall
    have hnone : (anchorCandidates pool start_date
        apply_mode).reverse.findSome?
        (fun x => anchorOfEntry name_to_id active_ids x.1) = none := by
      rw [List.findSome?_eq_none_iff]
      intro x hx
      exact hall x (List.mem_reverse.mp hx)
    obtain ⟨y, hy, hmem, hle⟩ := sorted_getLast?_max active_ids hsorted hne
    refine ⟨y, ?_, hmem, hle⟩
    rw [get_anchor_id, hnone]
    exact hy
  · intro c1 e c2 a hcand hc2 hsome
    have hrev : (anchorCandidates pool start_date apply_mode).reverse =
        c2.reverse ++ e :: c1.reverse := by
      rw [hcand, List.reverse_append, List.reverse_cons, List.append_assoc,
        List.singleton_append]
    rw [get_anchor_id, hrev,
      findSome?_skip_none _ a c2.reverse e c1.reverse
        (fun x hx =>
          anchorOfEntry_none_of_empty _ _ _ (hc2 x (List.mem_reverse.mp hx)))
        hsome]

/-- C9 witness: a one-entry pool whose single area list ends in a known
active name yields that name's id as anchor. -/
theorem C9_witness :
    get_anchor_id
        [⟨("2026-01-02").data, ("Fri").data, [((("教室").data),
          [("甲").data])], []⟩]
        [((("甲").data), 5)] [1, 5] ⟨2026, 1, 1⟩ (("append").data) =
      some 5 :=
  (C9_get_anchor_id
      [⟨("2026-01-02").data, ("Fri").data, [((("教室").data),
        [("甲").data])], []⟩]
      [((("甲").data), 5)] [1, 5] ⟨2026, 1, 1⟩ (("append").data)
      (by decide) (by decide)).2.2.2 []
    (⟨⟨("2026-01-02").data, ("Fri").data, [((("教室").data),
      [("甲").data])], []⟩, ⟨2026, 1, 2⟩⟩) [] 5
    (by decide) (by decide) (by decide)

/-! ### Untyped JSON trees and the response normalizer -/

/-- Untyped JSON values as returned by `json.loads` on model output. -/
inductive JVal : Type where
  | jnull : JVal
  | jbool : Bool → JVal
  | jnum : Int → JVal
  | jstr : List Char → JVal
  | jarr : List JVal → JVal
  | jobj : List ((List Char) × JVal) → JVal

mutual

/-- Python `repr` of a JSON tree (used by `str` on lists and dicts). -/
def pyRepr : JVal → List Char
  | .jnull => ("None").data
  | .jbool true => ("True").data
  | .jbool false => ("False").data
  | .jnum n => (toString n).data
  | .jstr s => Char.ofNat 39 :: s ++ [Char.ofNat 39]
  | .jarr l => '[' :: pyReprVals l ++ [']']
  | .jobj l => Char.ofNat 123 :: pyReprFields l ++ [Char.ofNat 125]

def pyReprVals : List JVal → List Char
  | [] => []
  | [v] => pyRepr v
  | v :: w :: rest => pyRepr v ++ (", ").data ++ pyReprVals (w :: rest)

def pyReprFields : List ((List Char) × JVal) → List Char
  | [] => []
  | [(k, v)] => Char.ofNat 39 :: k ++ ("': ").data ++ pyRepr v
  | (k, v) :: q :: rest =>
    Char.ofNat 39 :: k ++ ("': ").data ++ pyRepr v ++ (", ").data ++
      pyReprFields (q :: rest)

end

/-- Python `str` of a JSON value. -/
def pyStr : JVal → List Char
  | .jstr s => s
  | .jnum n => (toString n).data
  | .jbool true => ("True").data
  | .jbool false => ("False").data
  | .jnull => ("None").data
  | .jarr l => pyRepr (.jarr l)
  | .jobj l => pyRepr (.jobj l)

/-- `entry.get(key)` on a JSON value (`none` when not a dict or missing). -/
def jGet (v : JVal) (k : List Char) : Option JVal :=
  match v with
  | .jobj fields => dictGet fields k
  | _ => none

/-- Python truthiness of a JSON value. -/
def jTruthy : JVal → Bool
  | .jnull => false
  | .jbool b => b
  | .jnum n => if n = 0 then false else true
  | .jstr s => !s.isEmpty
  | .jarr l => !l.isEmpty
  | .jobj l => !l.isEmpty

/-- Python `a or b` where a missing key yields `None`. -/
def jOr (a : Option JVal) (b : JVal) : JVal :=
  match a with
  | some v => if jTruthy v then v else b
  | none => b

/-- Python `int(raw)` on a JSON value (`none` when it raises). -/
def pyToInt : JVal → Option Int
  | .jnum n => some n
  | .jbool b => some (if b then 1 else 0)
  | .jstr s => pyParseInt s
  | _ => none

/-- The loop of `extract_ids_from_value`: keep ids that are active and not
yet taken, stopping at the limit. -/
def extractIdsLoop (active_set : List Int) (limit : Nat) :
    List JVal → List Int → List Int
  | [], acc => acc
  | raw :: rest, acc =>
    match pyToInt raw with
    | none => extractIdsLoop active_set limit rest acc
    | some pid =>
      if pid ∉ active_set ∨ pid ∈ acc then
        extractIdsLoop active_set limit rest acc
      else if limit ≤ (acc ++ [pid]).length then acc ++ [pid]
      else extractIdsLoop active_set limit rest (acc ++ [pid])

def extract_ids_from_value (value : JVal) (active_set : List Int)
    (limit : Nat) : List Int :=
  match value with
  | .jarr l => extractIdsLoop active_set limit l []
  | _ => []

/-- The merge loop of the local `append_ids` of `extract_area_ids`. -/
def appendIdsLoop (per_area_count : Nat) : List Int → List Int → List Int
  | [], acc => acc
  | pid :: rest, acc =>
    if pid ∈ acc then appendIdsLoop per_area_count rest acc
    else if per_area_count ≤ (acc ++ [pid]).length then acc ++ [pid]
    else appendIdsLoop per_area_count rest (acc ++ [pid])

/-- `append_ids(value)`: bail out once the quota is reached, then merge the
ids extracted from `value` into the accumulator. -/
def appendIds (active_set : List Int) (per_area_count : Nat)
    (acc : List Int) (value : Option JVal) : List Int :=
  if per_area_count ≤ acc.length then acc
  else
    appendIdsLoop per_area_count
      (extract_ids_from_value (value.getD JVal.jnull) active_set
        per_area_count)
      acc

/-- The accepted key shapes scanned by `extract_area_ids`. -/
def AREA_KEYS : List (List Char) :=
  [("area_ids").data, ("areas").data, ("area_assignments").data]

/-- One key shape handled by the loop of `extract_area_ids`: when the key
holds a dict, read it by area name and then by positional index. -/
def extractAreaStep (entry : JVal) (area_name : List Char)
    (area_index : Nat) (active_set : List Int) (per_area_count : Nat)
    (acc : List Int) (key : List Char) : List Int :=
  match jGet entry key with
  | some (.jobj m) =>
    appendIds active_set per_area_count
      (appendIds active_set per_area_count acc (dictGet m area_name))
      (dictGet m (natChars area_index))
  | _ => acc

def extract_area_ids (entry : JVal) (area_name : List Char)
    (area_index : Nat) (active_set : List Int) (per_area_count : Nat) :
    List Int :=
  AREA_KEYS.foldl
    (extractAreaStep entry area_name area_index active_set per_area_count)
    []

def DEFAULT_PER_DAY : Nat := 2

/-- One configured area of the per-entry loop of
`normalize_multi_area_schedule_ids`: extract (quota-capped), drop ids
already used by an earlier area of the same day, record the result. -/
def processArea (entry : JVal) (active_set : List Int)
    (area_per_day_counts : List ((List Char) × Nat))
    (st : (List ((List Char) × List Int)) × List Int)
    (p : Nat × List Char) : (List ((List Char) × List Int)) × List Int :=
  (dictSet st.1 p.2
      ((extract_area_ids entry p.2 p.1 active_set
          ((dictGet area_per_day_counts p.2).getD DEFAULT_PER_DAY)).filter
        (fun pid => pid ∉ st.2)),
    st.2 ++
      (extract_area_ids entry p.2 p.1 active_set
          ((dictGet area_per_day_counts p.2).getD DEFAULT_PER_DAY)).filter
        (fun pid => pid ∉ st.2))

/-- The dynamic-areas loop: model-invented area names, no quota cap, only
added when they contribute at least one fresh id. -/
def dynamicAreasLoop (active_set : List Int) :
    List ((List Char) × JVal) →
    (List ((List Char) × List Int)) × List Int →
    (List ((List Char) × List Int)) × List Int
  | [], st => st
  | (k, v) :: rest, st =>
    if pyStrip k = [] ∨ (dictGet st.1 (pyStrip k)).isSome = true then
      dynamicAreasLoop active_set rest st
    else if (extract_ids_from_value v active_set 999).filter
        (fun pid => pid ∉ st.2) = [] then
      dynamicAreasLoop active_set rest st
    else
      dynamicAreasLoop active_set rest
        (st.1 ++ [(pyStrip k,
            (extract_ids_from_value v active_set 999).filter
              (fun pid => pid ∉ st.2))],
          st.2 ++
            (extract_ids_from_value v active_set 999).filter
              (fun pid => pid ∉ st.2))

/-- The per-day assignment state of one entry: the configured areas first,
then any dynamic areas found in the first truthy accepted key shape. -/
def entryState (active_set : List Int) (area_names : List (List Char))
    (area_per_day_counts : List ((List Char) × Nat)) (entry : JVal) :
    (List ((List Char) × List Int)) × List Int :=
  match jOr (jGet entry (("area_ids").data))
      (jOr (jGet entry (("areas").data))
        (jOr (jGet entry (("area_assignments").data)) (JVal.jobj []))) with
  | .jobj dyn =>
    dynamicAreasLoop active_set dyn
      (area_names.enum.foldl
        (processArea entry active_set area_per_day_counts) ([], []))
  | _ =>
    area_names.enum.foldl
      (processArea entry active_set area_per_day_counts) ([], [])

/-- Per-entry normalization: reject short dates, fill the configured areas,
then the dynamic areas. -/
def normalizeEntry (active_set : List Int) (area_names : List (List Char))
    (area_per_day_counts : List ((List Char) × Nat)) (entry : JVal) :
    Option NormEntry :=
  match entry with
  | .jobj _ =>
    if (pyStrip (pyStr ((jGet entry (("date").data)).getD
        (JVal.jstr [])))).length < 8 then none
    else
      some
        ⟨pyStrip (pyStr ((jGet entry (("date").data)).getD (JVal.jstr []))),
          (entryState active_set area_names area_per_day_counts entry).1,
          pyStrip (pyStr ((jGet entry (("note").data)).getD (JVal.jstr [])))⟩
  | _ => none

def normalize_multi_area_schedule_ids (schedule_raw : JVal)
    (active_ids : List Int) (area_names : List (List Char))
    (area_per_day_counts : List ((List Char) × Nat)) : List NormEntry :=
  match schedule_raw with
  | .jarr l =>
    l.filterMap (normalizeEntry active_ids area_names area_per_day_counts)
  | _ => []

/-- The list of integer id candidates carried by one accepted value. -/
def intsOfValue : Option JVal → List Int
  | some (.jarr l) => l.filterMap pyToInt
  | _ => []

/-- The id candidates one key shape offers for a configured area, in
payload order. -/
def areaKeyCandidates (entry : JVal) (area_name : List Char)
    (area_index : Nat) (key : List Char) : List Int :=
  match jGet entry key with
  | some (.jobj m) =>
    intsOfValue (dictGet m area_name) ++
      intsOfValue (dictGet m (natChars area_index))
  | _ => []

/-- All id candidates the raw payload offers for a configured area, in the
order `extract_area_ids` scans them. -/
def areaCandidates (entry : JVal) (area_name : List Char)
    (area_index : Nat) : List Int :=
  (AREA_KEYS.map (areaKeyCandidates entry area_name area_index)).flatten

theorem extractIdsLoop_nil (active_set : List Int) (limit : Nat)
    (acc : List Int) : extractIdsLoop active_set limit [] acc = acc := rfl

theorem extractIdsLoop_cons_none (active_set : List Int) (limit : Nat)
    (raw : JVal) (rest : List JVal) (acc : List Int)
    (h : pyToInt raw = none) :
    extractIdsLoop active_set limit (raw :: rest) acc =
      extractIdsLoop active_set limit rest acc := by
  simp only [extractIdsLoop, h]

theorem extractIdsLoop_cons_some (active_set : List Int) (limit : Nat)
    (raw : JVal) (rest : List JVal) (acc : List Int) (pid : Int)
    (h : pyToInt raw = some pid) :
    extractIdsLoop active_set limit (raw :: rest) acc =
      if pid ∉ active_set ∨ pid ∈ acc then
        extractIdsLoop active_set limit rest acc
      else if limit ≤ (acc ++ [pid]).length then acc ++ [pid]
      else extractIdsLoop active_set limit rest (acc ++ [pid]) := by
  simp only [extractIdsLoop, h]

theorem extractIdsLoop_spec (active_set : List Int) (limit : Nat) :
    ∀ (l : List JVal) (acc : List Int),
      ∃ t, extractIdsLoop active_set limit l acc = acc ++ t ∧
        List.Sublist t (l.filterMap pyToInt) ∧
        ∀ x ∈ t, x ∈ active_set ∧ x ∉ acc := by
  intro l
  induction l with
  | nil =>
    intro acc
    exact ⟨[], by simp [extractIdsLoop_nil], by simp, by simp⟩
  | cons raw rest ih =>
    intro acc
    cases hto : pyToInt raw with
    | none =>
      obtain ⟨t, heq, hsub, hprop⟩ := ih acc
      refine ⟨t, ?_, ?_, hprop⟩
      · rw [extractIdsLoop_cons_none _ _ _ _ _ hto]
        exact heq
      · rw [List.filterMap_cons, hto]
        exact hsub
    | some pid =>
      by_cases hskip : pid ∉ active_set ∨ pid ∈ acc
      · obtain ⟨t, heq, hsub, hprop⟩ := ih acc
        refine ⟨t, ?_, ?_, hprop⟩
        · rw [extractIdsLoop_cons_some _ _ _ _ _ _ hto, if_pos hskip]
          exact heq
        · rw [List.filterMap_cons, hto]
          exact hsub.cons pid
      · push_neg at hskip
        by_cases hlim : limit ≤ (acc ++ [pid]).length
        · refine ⟨[pid], ?_, ?_, ?_⟩
          · rw [extractIdsLoop_cons_some _ _ _ _ _ _ hto,
              if_neg (show ¬ (pid ∉ active_set ∨ pid ∈ acc) by tauto),
              if_pos hlim]
          · rw [List.filterMap_cons, hto]
            exact (List.nil_sublist _).cons₂ pid
          · intro x hx
            rcases List.mem_singleton.mp hx with rfl
            exact ⟨hskip.1, hskip.2⟩
        · obtain ⟨t, heq, hsub, hprop⟩ := ih (acc ++ [pid])
          refine ⟨pid :: t, ?_, ?_, ?_⟩
          · rw [extractIdsLoop_cons_some _ _ _ _ _ _ hto,
              if_neg (show ¬ (pid ∉ active_set ∨ pid ∈ acc) by tauto),
              if_neg hlim]
            rw [heq, List.append_assoc, List.singleton_append]
          · rw [List.filterMap_cons, hto]
            exact hsub.cons₂ pid
          · intro x hx
            rcases List.mem_cons.mp hx with rfl | hx
            · exact ⟨hskip.1, hskip.2⟩
            · obtain ⟨hact, hnacc⟩ := hprop x hx
              exact ⟨hact, fun hc => hnacc (List.mem_append_left _ hc)⟩

/-- `intsOfValue (some v)` covers all shapes of `extract_ids_from_value`'s
argument. -/
theorem extract_ids_sublist (v : JVal) (active_set : List Int)
    (limit : Nat) :
    List.Sublist (extract_ids_from_value v active_set limit)
      (intsOfValue (some v)) := by
  cases v with
  | jarr l =>
    obtain ⟨t, heq, hsub, _⟩ := extractIdsLoop_spec active_set limit l []
    simpa [extract_ids_from_value, intsOfValue, heq] using hsub
  | jnull => simp [extract_ids_from_value, intsOfValue]
  | jbool b => simp [extract_ids_from_value, intsOfValue]
  | jnum n => simp [extract_ids_from_value, intsOfValue]
  | jstr s => simp [extract_ids_from_value, intsOfValue]
  | jobj l => simp [extract_ids_from_value, intsOfValue]

theorem extract_ids_active (v : JVal) (active_set : List Int)
    (limit : Nat) :
    ∀ x ∈ extract_ids_from_value v active_set limit, x ∈ active_set := by
  cases v with
  | jarr l =>
    obtain ⟨t, heq, _, hprop⟩ := extractIdsLoop_spec active_set limit l []
    intro x hx
    rw [extract_ids_from_value, heq, List.nil_append] at hx
    exact (hprop x hx).1
  | jnull => simp [extract_ids_from_value]
  | jbool b => simp [extract_ids_from_value]
  | jnum n => simp [extract_ids_from_value]
  | jstr s => simp [extract_ids_from_value]
  | jobj l => simp [extract_ids_from_value]

theorem appendIdsLoop_nil (per_area_count : Nat) (acc : List Int) :
    appendIdsLoop per_area_count [] acc = acc := rfl

theorem appendIdsLoop_cons (per_area_count : Nat) (pid : Int)
    (rest acc : List Int) :
    appendIdsLoop per_area_count (pid :: rest) acc =
      if pid ∈ acc then appendIdsLoop per_area_count rest acc
      else if per_area_count ≤ (acc ++ [pid]).length then acc ++ [pid]
      else appendIdsLoop per_area_count rest (acc ++ [pid]) := rfl

theorem appendIdsLoop_spec (per_area_count : Nat) :
    ∀ (l acc : List Int),
      ∃ t, appendIdsLoop per_area_count l acc = acc ++ t ∧
        List.Sublist t l := by
  intro l
  induction l with
  | nil => intro acc; exact ⟨[], by simp [appendIdsLoop_nil], by simp⟩
  | cons pid rest ih =>
    intro acc
    by_cases hmem : pid ∈ acc
    · obtain ⟨t, heq, hsub⟩ := ih acc
      refine ⟨t, ?_, hsub.cons pid⟩
      rw [appendIdsLoop_cons, if_pos hmem]
      exact heq
    · by_cases hlim : per_area_count ≤ (acc ++ [pid]).length
      · refine ⟨[pid], ?_, (List.nil_sublist _).cons₂ pid⟩
        rw [appendIdsLoop_cons, if_neg hmem, if_pos hlim]
      · obtain ⟨t, heq, hsub⟩ := ih (acc ++ [pid])
        refine ⟨pid :: t, ?_, hsub.cons₂ pid⟩
        rw [appendIdsLoop_cons, if_neg hmem, if_neg hlim]
        rw [heq, List.append_assoc, List.singleton_append]

theorem appendIdsLoop_length (per_area_count : Nat) :
    ∀ (l acc : List Int), acc.length < per_area_count →
      (appendIdsLoop per_area_count l acc).length ≤ per_area_count := by
  intro l
  induction l with
  | nil =>
    intro acc h
    rw [appendIdsLoop_nil]
    omega
  | cons pid rest ih =>
    intro acc h
    by_cases hmem : pid ∈ acc
    · rw [appendIdsLoop_cons, if_pos hmem]
      exact ih acc h
    · by_cases hlim : per_area_count ≤ (acc ++ [pid]).length
      · rw [appendIdsLoop_cons, if_neg hmem, if_pos hlim]
        simp only [List.length_append, List.length_singleton]
        omega
      · rw [appendIdsLoop_cons, if_neg hmem, if_neg hlim]
        apply ih
        simp only [List.length_append, List.length_singleton] at hlim ⊢
        omega

theorem intsOfValue_getD (v : Option JVal) :
    intsOfValue (some (v.getD JVal.jnull)) = intsOfValue v := by
  cases v with
  | none => rfl
  | some w => rfl

theorem appendIds_spec (active_set : List Int) (per_area_count : Nat)
    (acc : List Int) (v : Option JVal)
    (hacc : acc.length ≤ per_area_count)
    (hact : ∀ x ∈ acc, x ∈ active_set) :
    ∃ t, appendIds active_set per_area_count acc v = acc ++ t ∧
      List.Sublist t (intsOfValue v) ∧
      (∀ x ∈ acc ++ t, x ∈ active_set) ∧
      (acc ++ t).length ≤ per_area_count := by
  by_cases hguard : per_area_count ≤ acc.length
  · refine ⟨[], ?_, by simp, ?_, ?_⟩
    · simp only [appendIds, if_pos hguard, List.append_nil]
    · simpa using hact
    · simpa using hacc
  · obtain ⟨t, heq, hsub⟩ :=
      appendIdsLoop_spec per_area_count
        (extract_ids_from_value (v.getD JVal.jnull) active_set
          per_area_count) acc
    have hlen :=
      appendIdsLoop_length per_area_count
        (extract_ids_from_value (v.getD JVal.jnull) active_set
          per_area_count) acc (by omega)
    refine ⟨t, ?_, ?_, ?_, ?_⟩
    · simp only [appendIds, if_neg hguard]
      exact heq
    · have h1 := hsub.trans (extract_ids_sublist _ _ _)
      rw [intsOfValue_getD v] at h1
      exact h1
    · intro x hx
      rcases List.mem_append.mp hx with hx | hx
      · exact hact x hx
      · exact extract_ids_active _ _ _ x (hsub.subset hx)
    · rw [← heq]
      exact hlen

theorem dictGet_dictSet_self {α β : Type} [DecidableEq α]
    (m : List (α × β)) (k : α) (v : β) :
    dictGet (dictSet m k v) k = some v := by
  induction m with
  | nil => simp [dictSet, dictGet]
  | cons q rest ih =>
    obtain ⟨k₀, v₀⟩ := q
    by_cases hk : k₀ = k
    · simp [dictSet, if_pos hk, dictGet]
    · simp only [dictSet, if_neg hk, dictGet, if_neg hk]
      exact ih

theorem dictGet_dictSet_ne {α β : Type} [DecidableEq α]
    (m : List (α × β)) (k k' : α) (v : β) (h : k ≠ k') :
    dictGet (dictSet m k v) k' = dictGet m k' := by
  induction m with
  | nil => simp [dictSet, dictGet, h]
  | cons q rest ih =>
    obtain ⟨k₀, v₀⟩ := q
    by_cases hk : k₀ = k
    · subst hk
      simp only [dictSet, if_pos rfl, dictGet, if_neg h]
    · simp only [dictSet, if_neg hk, dictGet]
      by_cases hk' : k₀ = k'
      · rw [if_pos hk', if_pos hk']
      · rw [if_neg hk', if_neg hk']
        exact ih

theorem dictGet_append_left {α β : Type} [DecidableEq α]
    (m m' : List (α × β)) (k : α) (v : β) (h : dictGet m k = some v) :
    dictGet (m ++ m') k = some v := by
  induction m with
  | nil => simp [dictGet] at h
  | cons q rest ih =>
    obtain ⟨k₀, v₀⟩ := q
    simp only [dictGet] at h
    simp only [List.cons_append, dictGet]
    by_cases hk : k₀ = k
    · rw [if_pos hk]
      rw [if_pos hk] at h
      exact h
    · rw [if_neg hk]
      rw [if_neg hk] at h
      exact ih h

theorem extractAreaStep_spec (entry : JVal) (area_name : List Char)
    (area_index : Nat) (active_set : List Int) (per_area_count : Nat)
    (acc : List Int) (key : List Char)
    (h1 : acc.length ≤ per_area_count)
    (h2 : ∀ x ∈ acc, x ∈ active_set) :
    ∃ t, extractAreaStep entry area_name area_index active_set
        per_area_count acc key = acc ++ t ∧
      List.Sublist t (areaKeyCandidates entry area_name area_index key) ∧
      (∀ x ∈ acc ++ t, x ∈ active_set) ∧
      (acc ++ t).length ≤ per_area_count := by
  cases hj : jGet entry key with
  | none =>
    refine ⟨[], ?_, List.nil_sublist _, by simpa using h2, by simpa using h1⟩
    simp only [extractAreaStep, hj, List.append_nil]
  | some w =>
    cases w with
    | jobj m =>
      obtain ⟨t₁, heq₁, hsub₁, hact₁, hlen₁⟩ :=
        appendIds_spec active_set per_area_count acc (dictGet m area_name)
          h1 h2
      obtain ⟨t₂, heq₂, hsub₂, hact₂, hlen₂⟩ :=
        appendIds_spec active_set per_area_count (acc ++ t₁)
          (dictGet m (natChars area_index)) hlen₁ hact₁
      refine ⟨t₁ ++ t₂, ?_, ?_, ?_, ?_⟩
      · simp only [extractAreaStep, hj]
        rw [heq₁, heq₂, List.append_assoc]
      · simp only [areaKeyCandidates, hj]
        exact hsub₁.append hsub₂
      · rw [← List.append_assoc]
        exact hact₂
      · rw [← List.append_assoc]
        exact hlen₂
    | jnull =>
      refine ⟨[], ?_, List.nil_sublist _, by simpa using h2,
        by simpa using h1⟩
      simp only [extractAreaStep, hj, List.append_nil]
    | jbool b =>
      refine ⟨[], ?_, List.nil_sublist _, by simpa using h2,
        by simpa using h1⟩
      simp only [extractAreaStep, hj, List.append_nil]
    | jnum n =>
      refine ⟨[], ?_, List.nil_sublist _, by simpa using h2,
        by simpa using h1⟩
      simp only [extractAreaStep, hj, List.append_nil]
    | jstr s =>
      refine ⟨[], ?_, List.nil_sublist _, by simpa using h2,
        by simpa using h1⟩
      simp only [extractAreaStep, hj, List.append_nil]
    | jarr l =>
      refine ⟨[], ?_, List.nil_sublist _, by simpa using h2,
        by simpa using h1⟩
      simp only [extractAreaStep, hj, List.append_nil]

theorem extractAreaFold_spec (entry : JVal) (area_name : List Char)
    (area_index : Nat) (active_set : List Int) (per_area_count : Nat) :
    ∀ (keys : List (List Char)) (acc : List Int),
      acc.length ≤ per_area_count → (∀ x ∈ acc, x ∈ active_set) →
      ∃ t, keys.foldl
          (extractAreaStep entry area_name area_index active_set
            per_area_count) acc = acc ++ t ∧
        List.Sublist t
          ((keys.map
            (areaKeyCandidates entry area_name area_index)).flatten) ∧
        (∀ x ∈ acc ++ t, x ∈ active_set) ∧
        (acc ++ t).length ≤ per_area_count := by
  intro keys
  induction keys with
  | nil =>
    intro acc h1 h2
    exact ⟨[], by simp, by simp, by simpa using h2, by simpa using h1⟩
  | cons key rest ih =>
    intro acc h1 h2
    obtain ⟨t₁, heq₁, hsub₁, hact₁, hlen₁⟩ :=
      extractAreaStep_spec entry area_name area_index active_set
        per_area_count acc key h1 h2
    obtain ⟨t₂, heq₂, hsub₂, hact₂, hlen₂⟩ := ih (acc ++ t₁) hlen₁ hact₁
    refine ⟨t₁ ++ t₂, ?_, ?_, ?_, ?_⟩
    · rw [List.foldl_cons, heq₁, heq₂, List.append_assoc]
    · rw [List.map_cons, List.flatten_cons]
      exact hsub₁.append hsub₂
    · rw [← List.append_assoc]
      exact hact₂
    · rw [← List.append_assoc]
      exact hlen₂

/-- The final ids of a configured area: a candidate subsequence, active
only, within quota. -/
theorem extract_area_ids_spec (entry : JVal) (area_name : List Char)
    (area_index : Nat) (active_set : List Int) (per_area_count : Nat) :
    List.Sublist
        (extract_area_ids entry area_name area_index active_set
          per_area_count)
        (areaCandidates entry area_name area_index) ∧
      (∀ x ∈ extract_area_ids entry area_name area_index active_set
          per_area_count, x ∈ active_set) ∧
      (extract_area_ids entry area_name area_index active_set
        per_area_count).length ≤ per_area_count := by
  obtain ⟨t, heq, hsub, hact, hlen⟩ :=
    extractAreaFold_spec entry area_name area_index active_set
      per_area_count AREA_KEYS [] (by simp) (by simp)
  rw [extract_area_ids, heq, List.nil_append]
  rw [List.nil_append] at hact hlen
  exact ⟨hsub, hact, hlen⟩

/-- Invariant of the per-day assignment state: every recorded id is active
and recorded in the used set, and distinct areas hold disjoint id lists. -/
def NormInv (active_set : List Int)
    (st : (List ((List Char) × List Int)) × List Int) : Prop :=
  (∀ p ∈ st.1, (∀ x ∈ p.2, x ∈ active_set) ∧ (∀ x ∈ p.2, x ∈ st.2)) ∧
    st.1.Pairwise (fun p q => (∀ x ∈ p.2, x ∉ q.2) ∧ (∀ x ∈ q.2, x ∉ p.2))

theorem dictSet_pairwise {α β : Type} [DecidableEq α]
    {R : (α × β) → (α × β) → Prop}
    (m : List (α × β)) (k : α) (v : β) (hm : m.Pairwise R)
    (hall : ∀ p ∈ m, R p (k, v) ∧ R (k, v) p) :
    (dictSet m k v).Pairwise R := by
  induction m with
  | nil => simp [dictSet]
  | cons q rest ih =>
    obtain ⟨k₀, v₀⟩ := q
    rw [List.pairwise_cons] at hm
    by_cases hk : k₀ = k
    · simp only [dictSet, if_pos hk]
      rw [List.pairwise_cons]
      constructor
      · intro q hq
        exact (hall q (List.mem_cons_of_mem _ hq)).2
      · exact hm.2
    · simp only [dictSet, if_neg hk]
      rw [List.pairwise_cons]
      constructor
      · intro q hq
        rcases dictSet_mem rest k v q hq with rfl | hq'
        · exact (hall (k₀, v₀) (List.mem_cons_self _ _)).1
        · exact hm.1 q hq'
      · exact ih hm.2 (fun p hp => hall p (List.mem_cons_of_mem _ hp))

theorem mem_filter_not_used {l used : List Int} {x : Int}
    (hx : x ∈ l.filter (fun pid => pid ∉ used)) : x ∉ used := by
  have := List.of_mem_filter hx
  simpa using this

theorem processArea_inv (entry : JVal) (active_set : List Int)
    (counts : List ((List Char) × Nat))
    (st : (List ((List Char) × List Int)) × List Int) (p : Nat × List Char)
    (h : NormInv active_set st) :
    NormInv active_set (processArea entry active_set counts st p) := by
  obtain ⟨hmem, hpw⟩ := h
  constructor
  · intro q hq
    rcases dictSet_mem st.1 p.2 _ q hq with rfl | hq'
    · constructor
      · intro x hx
        exact (extract_area_ids_spec entry p.2 p.1 active_set
          ((dictGet counts p.2).getD DEFAULT_PER_DAY)).2.1 x
          (List.mem_of_mem_filter hx)
      · intro x hx
        exact List.mem_append_right _ hx
    · constructor
      · exact (hmem q hq').1
      · intro x hx
        exact List.mem_append_left _ ((hmem q hq').2 x hx)
  · apply dictSet_pairwise _ _ _ hpw
    intro q hq
    refine ⟨⟨?_, ?_⟩, ?_, ?_⟩
    · intro x hx hxF
      exact mem_filter_not_used hxF ((hmem q hq).2 x hx)
    · intro x hxF hxq
      exact mem_filter_not_used hxF ((hmem q hq).2 x hxq)
    · intro x hxF hxq
      exact mem_filter_not_used hxF ((hmem q hq).2 x hxq)
    · intro x hx hxF
      exact mem_filter_not_used hxF ((hmem q hq).2 x hx)

theorem configFold_inv (entry : JVal) (active_set : List Int)
    (counts : List ((List Char) × Nat)) :
    ∀ (ps : List (Nat × List Char))
      (st : (List ((List Char) × List Int)) × List Int),
      NormInv active_set st →
      NormInv active_set
        (ps.foldl (processArea entry active_set counts) st) := by
  intro ps
  induction ps with
  | nil => intro st h; exact h
  | cons p rest ih =>
    intro st h
    rw [List.foldl_cons]
    exact ih _ (processArea_inv _ _ _ _ _ h)

theorem dynamicAreasLoop_cons (active_set : List Int) (k : List Char)
    (v : JVal) (rest : List ((List Char) × JVal))
    (st : (List ((List Char) × List Int)) × List Int) :
    dynamicAreasLoop active_set ((k, v) :: rest) st =
      if pyStrip k = [] ∨ (dictGet st.1 (pyStrip k)).isSome = true then
        dynamicAreasLoop active_set rest st
      else if (extract_ids_from_value v active_set 999).filter
          (fun pid => pid ∉ st.2) = [] then
        dynamicAreasLoop active_set rest st
      else
        dynamicAreasLoop active_set rest
          (st.1 ++ [(pyStrip k,
              (extract_ids_from_value v active_set 999).filter
                (fun pid => pid ∉ st.2))],
            st.2 ++
              (extract_ids_from_value v active_set 999).filter
                (fun pid => pid ∉ st.2)) := rfl

theorem dynamicLoop_inv (active_set : List Int) :
    ∀ (fields : List ((List Char) × JVal))
      (st : (List ((List Char) × List Int)) × List Int),
      NormInv active_set st →
      NormInv active_set (dynamicAreasLoop active_set fields st) := by
  intro fields
  induction fields with
  | nil => intro st h; exact h
  | cons f rest ih =>
    intro st h
    obtain ⟨k, v⟩ := f
    rw [dynamicAreasLoop_cons]
    by_cases hskip : pyStrip k = [] ∨
        (dictGet st.1 (pyStrip k)).isSome = true
    · rw [if_pos hskip]
      exact ih st h
    · rw [if_neg hskip]
      by_cases hempty : (extract_ids_from_value v active_set 999).filter
          (fun pid => pid ∉ st.2) = []
      · rw [if_pos hempty]
        exact ih st h
      · rw [if_neg hempty]
        apply ih
        obtain ⟨hmem, hpw⟩ := h
        constructor
        · intro q hq
          rcases List.mem_append.mp hq with hq' | hq'
          · exact ⟨(hmem q hq').1,
              fun x hx => List.mem_append_left _ ((hmem q hq').2 x hx)⟩
          · rcases List.mem_singleton.mp hq' with rfl
            refine ⟨?_, ?_⟩
            · intro x hx
              exact extract_ids_active _ _ _ x (List.mem_of_mem_filter hx)
            · intro x hx
              exact List.mem_append_right _ hx
        · rw [List.pairwise_append]
          refine ⟨hpw, by simp, ?_⟩
          intro a ha b hb
          rcases List.mem_singleton.mp hb with rfl
          refine ⟨?_, ?_⟩
          · intro x hx hxF
            exact mem_filter_not_used hxF ((hmem a ha).2 x hx)
          · intro x hxF hxa
            exact mem_filter_not_used hxF ((hmem a ha).2 x hxa)

theorem configFold_preserves_get (entry : JVal) (active_set : List Int)
    (counts : List ((List Char) × Nat)) :
    ∀ (ps : List (Nat × List Char))
      (st : (List ((List Char) × List Int)) × List Int) (key : List Char),
      (∀ q ∈ ps, q.2 ≠ key) →
      dictGet ((ps.foldl (processArea entry active_set counts) st)).1 key =
        dictGet st.1 key := by
  intro ps
  induction ps with
  | nil => intro st key _; rfl
  | cons q rest ih =>
    intro st key h
    rw [List.foldl_cons,
      ih _ key (fun r hr => h r (List.mem_cons_of_mem _ hr))]
    exact dictGet_dictSet_ne _ _ _ _ (h q (List.mem_cons_self _ _))

theorem dynamicLoop_preserves_get (active_set : List Int) :
    ∀ (fields : List ((List Char) × JVal))
      (st : (List ((List Char) × List Int)) × List Int)
      (key : List Char) (l : List Int),
      dictGet st.1 key = some l →
      dictGet (dynamicAreasLoop active_set fields st).1 key = some l := by
  intro fields
  induction fields with
  | nil => intro st key l h; exact h
  | cons f rest ih =>
    intro st key l h
    obtain ⟨k, v⟩ := f
    rw [dynamicAreasLoop_cons]
    by_cases hskip : pyStrip k = [] ∨
        (dictGet st.1 (pyStrip k)).isSome = true
    · rw [if_pos hskip]
      exact ih st key l h
    · rw [if_neg hskip]
      by_cases hempty : (extract_ids_from_value v active_set 999).filter
          (fun pid => pid ∉ st.2) = []
      · rw [if_pos hempty]
        exact ih st key l h
      · rw [if_neg hempty]
        exact ih _ key l (dictGet_append_left _ _ _ _ h)

theorem snd_mem_of_mem_enumFrom {α : Type} :
    ∀ (l : List α) (n : Nat) (q : Nat × α),
      q ∈ List.enumFrom n l → q.2 ∈ l := by
  intro l
  induction l with
  | nil => intro n q h; simp [List.enumFrom] at h
  | cons a rest ih =>
    intro n q h
    rcases List.mem_cons.mp h with rfl | h
    · exact List.mem_cons_self _ _
    · exact List.mem_cons_of_mem _ (ih _ _ h)

theorem configFold_lookup (entry : JVal) (active_set : List Int)
    (counts : List ((List Char) × Nat)) :
    ∀ (pre : List (List Char)) (nm : List Char) (post : List (List Char))
      (n : Nat) (st : (List ((List Char) × List Int)) × List Int),
      nm ∉ pre → nm ∉ post → dictGet st.1 nm = none →
      ∃ l, dictGet ((List.enumFrom n (pre ++ nm :: post)).foldl
          (processArea entry active_set counts) st).1 nm = some l ∧
        l.length ≤ (dictGet counts nm).getD DEFAULT_PER_DAY ∧
        List.Sublist l (areaCandidates entry nm (n + pre.length)) ∧
        (∀ x ∈ l, x ∈ active_set) := by
  intro pre
  induction pre with
  | nil =>
    intro nm post n st _ hpost h0
    rw [List.nil_append]
    rw [show List.enumFrom n (nm :: post) =
      (n, nm) :: List.enumFrom (n + 1) post from rfl, List.foldl_cons]
    have hne : ∀ q ∈ List.enumFrom (n + 1) post, q.2 ≠ nm :=
      fun q hq hqe =>
        hpost (hqe ▸ snd_mem_of_mem_enumFrom post (n + 1) q hq)
    obtain ⟨hsub, hact, hlen⟩ :=
      extract_area_ids_spec entry nm n active_set
        ((dictGet counts nm).getD DEFAULT_PER_DAY)
    refine ⟨(extract_area_ids entry nm n active_set
        ((dictGet counts nm).getD DEFAULT_PER_DAY)).filter
      (fun pid => pid ∉ st.2), ?_, ?_, ?_, ?_⟩
    · rw [configFold_preserves_get entry active_set counts _ _ nm hne]
      exact dictGet_dictSet_self st.1 nm _
    · exact le_trans (List.length_filter_le _ _) hlen
    · simp only [List.length_nil, Nat.add_zero]
      exact (List.filter_sublist _).trans hsub
    · intro x hx
      exact hact x (List.mem_of_mem_filter hx)
  | cons a pre' ih =>
    intro nm post n st hpre hpost h0
    rw [List.cons_append]
    rw [show List.enumFrom n (a :: (pre' ++ nm :: post)) =
      (n, a) :: List.enumFrom (n + 1) (pre' ++ nm :: post) from rfl,
      List.foldl_cons]
    have hane : a ≠ nm := fun he => hpre (he ▸ List.mem_cons_self _ _)
    have h0' : dictGet (processArea entry active_set counts st (n, a)).1
        nm = none := by
      rw [show (processArea entry active_set counts st (n, a)).1 =
        dictSet st.1 a _ from rfl]
      rw [dictGet_dictSet_ne _ _ _ _ hane]
      exact h0
    have hpre' : nm ∉ pre' := fun hh => hpre (List.mem_cons_of_mem _ hh)
    obtain ⟨l, hg, hlen, hsub, hact⟩ := ih nm post (n + 1) _ hpre' hpost h0'
    refine ⟨l, hg, hlen, ?_, hact⟩
    have harith : n + 1 + pre'.length = n + (a :: pre').length := by
      simp only [List.length_cons]
      omega
    rw [← harith]
    exact hsub

theorem entryState_inv (active_set : List Int)
    (area_names : List (List Char)) (counts : List ((List Char) × Nat))
    (entry : JVal) :
    NormInv active_set (entryState active_set area_names counts entry) := by
  have hbase : NormInv active_set
      (area_names.enum.foldl (processArea entry active_set counts)
        ([], [])) :=
    configFold_inv entry active_set counts _ _ ⟨by simp, by simp⟩
  unfold entryState
  split
  · exact dynamicLoop_inv active_set _ _ hbase
  · exact hbase

theorem entryState_lookup (active_set : List Int)
    (counts : List ((List Char) × Nat)) (entry : JVal)
    (pre : List (List Char)) (nm : List Char) (post : List (List Char))
    (hpre : nm ∉ pre) (hpost : nm ∉ post) :
    ∃ l, dictGet (entryState active_set (pre ++ nm :: post) counts
        entry).1 nm = some l ∧
      l.length ≤ (dictGet counts nm).getD DEFAULT_PER_DAY ∧
      List.Sublist l (areaCandidates entry nm pre.length) ∧
      (∀ x ∈ l, x ∈ active_set) := by
  obtain ⟨l, hg, hlen, hsub, hact⟩ :=
    configFold_lookup entry active_set counts pre nm post 0 ([], [])
      hpre hpost rfl
  rw [Nat.zero_add] at hsub
  have henum : (pre ++ nm :: post).enum =
      List.enumFrom 0 (pre ++ nm :: post) := rfl
  unfold entryState
  split
  · refine ⟨l, ?_, hlen, hsub, hact⟩
    apply dynamicLoop_preserves_get
    rw [henum]
    exact hg
  · refine ⟨l, ?_, hlen, hsub, hact⟩
    rw [henum]
    exact hg

theorem normalizeEntry_area_ids {active_set : List Int}
    {area_names : List (List Char)} {counts : List ((List Char) × Nat)}
    {entry : JVal} {ne : NormEntry}
    (h : normalizeEntry active_set area_names counts entry = some ne) :
    ne.area_ids = (entryState active_set area_names counts entry).1 := by
  cases entry with
  | jobj fields =>
    simp only [normalizeEntry] at h
    split at h
    · exact absurd h (by simp)
    · rw [← Option.some.inj h]
  | jnull => simp [normalizeEntry] at h
  | jbool b => simp [normalizeEntry] at h
  | jnum n => simp [normalizeEntry] at h
  | jstr s => simp [normalizeEntry] at h
  | jarr l => simp [normalizeEntry] at h

/-- C3: normalization emits, for every area of every emitted day, only ids
from the active set; it never assigns an id to two areas of the same day;
for each configured area (at position i in a duplicate-free area list) it
emits a list that is a subsequence of the id candidates the raw payload
offers for that area in scan order (hence in payload order), capped at the
area's quota; and the concrete scenario with active ids [1,2,3], one area
"A" of quota 2 and raw list [3,4,2] normalizes to [3,2]. -/
theorem C3_normalize_multi_area_schedule_ids :
    (∀ (schedule_raw : JVal) (active_ids : List Int)
        (area_names : List (List Char))
        (area_per_day_counts : List ((List Char) × Nat)),
      ∀ ne ∈ normalize_multi_area_schedule_ids schedule_raw active_ids
          area_names area_per_day_counts,
        (∀ p ∈ ne.area_ids, ∀ x ∈ p.2, x ∈ active_ids) ∧
          ne.area_ids.Pairwise (fun p q => ∀ x ∈ p.2, x ∉ q.2)) ∧
    (∀ (entry : JVal) (active_ids : List Int)
        (area_names pre post : List (List Char)) (nm : List Char)
        (area_per_day_counts : List ((List Char) × Nat)) (ne : NormEntry),
      normalizeEntry active_ids area_names area_per_day_counts entry =
        some ne →
      area_names = pre ++ nm :: post → area_names.Nodup →
      ∃ l, dictGet ne.area_ids nm = some l ∧
        l.length ≤ (dictGet area_per_day_counts nm).getD DEFAULT_PER_DAY ∧
        List.Sublist l (areaCandidates entry nm pre.length) ∧
        (∀ x ∈ l, x ∈ active_ids)) ∧
    normalize_multi_area_schedule_ids
        (JVal.jarr [JVal.jobj
          [((("date").data), JVal.jstr (("2026-02-20").data)),
            ((("area_ids").data), JVal.jobj
              [((("A").data), JVal.jarr
                [JVal.jnum 3, JVal.jnum 4, JVal.jnum 2])])]])
        [1, 2, 3] [(("A").data)] [((("A").data), 2)] =
      [⟨("2026-02-20").data, [((("A").data), [3, 2])], []⟩] := by
  refine ⟨?_, ?_, by decide⟩
  · intro raw act areas counts ne hne
    have hsome : ∃ e, normalizeEntry act areas counts e = some ne := by
      cases raw with
      | jarr l =>
        simp only [normalize_multi_area_schedule_ids] at hne
        obtain ⟨e, _, heq⟩ := List.mem_filterMap.mp hne
        exact ⟨e, heq⟩
      | jnull => simp [normalize_multi_area_schedule_ids] at hne
      | jbool b => simp [normalize_multi_area_schedule_ids] at hne
      | jnum n => simp [normalize_multi_area_schedule_ids] at hne
      | jstr s => simp [normalize_multi_area_schedule_ids] at hne
      | jobj l => simp [normalize_multi_area_schedule_ids] at hne
    obtain ⟨e, he⟩ := hsome
    have hinv := entryState_inv act areas counts e
    rw [normalizeEntry_area_ids he]
    exact ⟨fun p hp => (hinv.1 p hp).1, hinv.2.imp (fun h => h.1)⟩
  · intro entry act areas pre post nm counts ne h hsplit hnodup
    subst hsplit
    rw [normalizeEntry_area_ids h]
    rw [List.nodup_append] at hnodup
    have hpre : nm ∉ pre :=
      fun hc => hnodup.2.2 hc (List.mem_cons_self _ _)
    have hpost : nm ∉ post := (List.nodup_cons.mp hnodup.2.1).1
    exact entryState_lookup act counts entry pre nm post hpre hpost

/-- C3 witness: the normalized day of the concrete scenario satisfies the
active-only and cross-area-disjointness guarantees. -/
theorem C3_witness :
    (∀ p ∈ (NormEntry.mk (("2026-02-20").data)
        [((("A").data), [3, 2])] []).area_ids,
      ∀ x ∈ p.2, x ∈ ([1, 2, 3] : List Int)) ∧
    (NormEntry.mk (("2026-02-20").data)
        [((("A").data), [3, 2])] []).area_ids.Pairwise
      (fun p q => ∀ x ∈ p.2, x ∉ q.2) :=
  C3_normalize_multi_area_schedule_ids.1
    (JVal.jarr [JVal.jobj
      [((("date").data), JVal.jstr (("2026-02-20").data)),
        ((("area_ids").data), JVal.jobj
          [((("A").data), JVal.jarr
            [JVal.jnum 3, JVal.jnum 4, JVal.jnum 2])])]])
    [1, 2, 3] [(("A").data)] [((("A").data), 2)]
    (NormEntry.mk (("2026-02-20").data) [((("A").data), [3, 2])] [])
    (by decide)

end DutyAgent
